import Mathlib

/-!
Verification development for the llvm-opt-passes repository: a shallow
embedding of the three transformations (constant folding, value-numbering
based redundancy elimination, loop unrolling) together with theorems that
settle the specification claims.

Namespaces:
  LU — LoopUnrollingPass.cpp (LoopAnalyzer: strategy selection, unroll factor,
       side-effect scan),
  CF — ConstantFoldingPass.cpp (visitor candidate collection and the
       fold-to-fixed-point loop),
  RA — RedundancyAnalysis.cpp / RedundancyEliminationPass.cpp (value number
       table, expression keys, availability, elimination).
-/

namespace LU

/-- Configuration record mirroring LoopUnrollConfig in LoopUnrollingPass.h
with its default member initializers. -/
structure LoopUnrollConfig where
  FullUnrollMaxCount : Nat := 8
  FullUnrollMaxInstructions : Nat := 100
  PartialUnrollFactor : Nat := 4
  MaxPartialUnrollFactor : Nat := 8
  AllowRuntimeUnroll : Bool := true
  RuntimeUnrollMinTripCount : Nat := 4
  UnrollLoopsWithCalls : Bool := false
  MaxUnrolledSize : Nat := 400
deriving DecidableEq

/-- The default-constructed configuration used by LoopUnrollingPass. -/
def defaultConfig : LoopUnrollConfig := {}

/-- Unroll strategies, as in LoopUnrollCandidate::UnrollStrategy. -/
inductive UnrollStrategy
  | FullUnroll
  | PartialUnroll
  | RuntimeUnroll
  | NoUnroll
deriving DecidableEq

/-- The data fields of LoopUnrollCandidate that strategy selection and
factor calculation read (the Loop pointer, Strategy and UnrollFactor fields
are carried separately in this embedding). -/
structure LoopUnrollCandidate where
  TripCount : Nat
  TripMultiple : Nat := 1
  InstructionCount : Nat
  IsSimple : Bool := true
  HasSideEffects : Bool := false
deriving DecidableEq

/-- One instruction of a loop body, carrying exactly the attributes that
LoopAnalyzer::hasSideEffects inspects: whether it is a call, whether the
called function is statically known (getCalledFunction non-null), whether
that callee is marked doesNotAccessMemory, and the volatile/atomic flags. -/
structure LoopInstr where
  isCall : Bool := false
  hasCalledFunction : Bool := true
  calleeDoesNotAccessMemory : Bool := false
  isVolatile : Bool := false
  isAtomic : Bool := false
deriving DecidableEq

/-- The per-instruction test inside LoopAnalyzer::hasSideEffects: a call
whose callee is unknown or not doesNotAccessMemory, or a volatile or atomic
instruction. -/
def instrSideEffect (i : LoopInstr) : Bool :=
  (i.isCall && (!i.hasCalledFunction || !i.calleeDoesNotAccessMemory))
    || i.isVolatile || i.isAtomic

/-- LoopAnalyzer::hasSideEffects over the flattened loop body. -/
def hasSideEffects (body : List LoopInstr) : Bool :=
  body.any instrSideEffect

/-- LoopAnalyzer::determineStrategy, following the source's cascade of
conditions verbatim. -/
def determineStrategy (Config : LoopUnrollConfig) (c : LoopUnrollCandidate) :
    UnrollStrategy :=
  if c.HasSideEffects = true ∧ Config.UnrollLoopsWithCalls = false then
    .NoUnroll
  else if 0 < c.TripCount ∧ c.TripCount ≤ Config.FullUnrollMaxCount ∧
      c.InstructionCount * c.TripCount ≤ Config.FullUnrollMaxInstructions then
    .FullUnroll
  else if 0 < c.TripCount then
    .PartialUnroll
  else if Config.AllowRuntimeUnroll = true ∧ c.IsSimple = true then
    .RuntimeUnroll
  else
    .NoUnroll

/-- A decrement loop of the shape `while (f > 1 && p f) f--` from
LoopAnalyzer::calculateUnrollFactor, expressed by structural recursion. -/
def shrinkWhile (p : Nat → Bool) : Nat → Nat
  | 0 => 0
  | f + 1 =>
    if 1 < f + 1 ∧ p (f + 1) = true then shrinkWhile p f else f + 1

/-- LoopAnalyzer::calculateUnrollFactor. For PartialUnroll the source runs
two sequential decrement loops: first adjust the factor to divide the trip
count, then shrink it further while the unrolled size exceeds
MaxUnrolledSize. -/
def calculateUnrollFactor (Config : LoopUnrollConfig)
    (c : LoopUnrollCandidate) : UnrollStrategy → Nat
  | .FullUnroll => c.TripCount
  | .PartialUnroll =>
    let F1 := shrinkWhile (fun f => !(c.TripCount % f == 0))
      Config.PartialUnrollFactor
    shrinkWhile (fun f => decide (Config.MaxUnrolledSize < c.InstructionCount * f)) F1
  | .RuntimeUnroll => Config.PartialUnrollFactor
  | .NoUnroll => 1

/-- Counterexample candidate for claim C3: trip count 3, 150 body
instructions, no side effects. -/
def c3cex : LoopUnrollCandidate :=
  { TripCount := 3, InstructionCount := 150 }

/-- Witness candidate for the amended claim C3. -/
def c3wit : LoopUnrollCandidate :=
  { TripCount := 16, InstructionCount := 30 }

/-- Witness candidate for claim C6: trip count 8, 12 body instructions. -/
def c6wit : LoopUnrollCandidate :=
  { TripCount := 8, InstructionCount := 12 }

/-- Loop body for claim C7: a single call to a function that is statically
known and marked doesNotAccessMemory (memory-pure), nothing volatile or
atomic. -/
def c7body : List LoopInstr :=
  [{ isCall := true, hasCalledFunction := true,
     calleeDoesNotAccessMemory := true }]

/-- Counterexample candidate for claim C7, built the way analyzeLoop builds
it: HasSideEffects is the result of the side-effect scan over the body. -/
def c7cex : LoopUnrollCandidate :=
  { TripCount := 4, InstructionCount := 1,
    HasSideEffects := hasSideEffects c7body }

end LU

namespace CF

/-- Opcodes for the constant-folding model. The first six classes are the
ones ConstantFoldingVisitor dispatches on (binary operator, cast,
comparison, select, GEP); fneg is a UnaryOperator and load a memory
operation, both of which fall through to the default visitInstruction. -/
inductive FOp
  | add
  | udiv
  | trunc
  | eqcmp
  | selectOp
  | gep
  | fneg
  | load
deriving DecidableEq

/-- An operand: a constant literal or a reference to an SSA value id. -/
inductive FOperand
  | const (c : Int)
  | ref (v : Nat)
deriving DecidableEq

/-- An instruction of the straight-line function model: result value id,
opcode and operand list. -/
structure FInstr where
  id : Nat
  op : FOp
  operands : List FOperand
deriving DecidableEq

/-- Whether an operand is a constant (isa Constant in the source). -/
def isConstOperand : FOperand → Bool
  | .const _ => true
  | .ref _ => false

/-- ConstantFoldingVisitor::allOperandsConstant. -/
def allOperandsConstant (i : FInstr) : Bool :=
  i.operands.all isConstOperand

/-- Modelled from the spec: the host ConstantEvaluator
(LLVM ConstantFoldInstruction, an external collaborator that is not part of
this repository's sources). Per the spec's folding predicate, evaluation is
defined only when the operands are all constants and the operation does not
trap; division by a constant zero yields no result. -/
def constantFoldInstruction (i : FInstr) : Option Int :=
  if allOperandsConstant i = false then none
  else
    match i.op, i.operands with
    | .add, [.const a, .const b] => some (a + b)
    | .udiv, [.const a, .const b] => if b = 0 then none else some (a / b)
    | .trunc, [.const a] => some a
    | .eqcmp, [.const a, .const b] => some (if a = b then 1 else 0)
    | .selectOp, [.const c, .const a, .const b] =>
      some (if c ≠ 0 then a else b)
    | .gep, [.const a, .const b] => some (a + b)
    | .fneg, [.const a] => some (-a)
    | _, _ => none

/-- The visitor's per-instruction decision from ConstantFoldingPass.cpp:
each overloaded visit method first checks its class-specific constant
precondition and then asks the evaluator; the default visitInstruction
returns false, so fneg (a UnaryOperator) and load are never candidates. -/
def visitorCandidate (i : FInstr) : Bool :=
  match i.op with
  | .add | .udiv =>
    match i.operands with
    | [o1, o2] =>
      isConstOperand o1 && isConstOperand o2 &&
        (constantFoldInstruction i).isSome
    | _ => false
  | .trunc =>
    match i.operands with
    | [o1] => isConstOperand o1 && (constantFoldInstruction i).isSome
    | _ => false
  | .eqcmp =>
    match i.operands with
    | [o1, o2] =>
      isConstOperand o1 && isConstOperand o2 &&
        (constantFoldInstruction i).isSome
    | _ => false
  | .selectOp =>
    match i.operands with
    | cnd :: _ => isConstOperand cnd && (constantFoldInstruction i).isSome
    | _ => false
  | .gep => allOperandsConstant i && (constantFoldInstruction i).isSome
  | .fneg => false
  | .load => false

/-- Phase 1 of ConstantFoldingPass::run: the visitor sweep that collects
folding candidates without mutating anything. -/
def collectCandidates (F : List FInstr) : List FInstr :=
  F.filter visitorCandidate

/-- Replace a use of value rid by the constant c (one step of
replaceAllUsesWith). -/
def rauwOperand (rid : Nat) (c : Int) : FOperand → FOperand
  | .ref v => if v = rid then .const c else .ref v
  | .const k => .const k

/-- replaceAllUsesWith over the remainder of the function. -/
def rauwTail (rid : Nat) (c : Int) (l : List FInstr) : List FInstr :=
  l.map (fun i => { i with operands := i.operands.map (rauwOperand rid c) })

/-- One full forward sweep of phase 2 of ConstantFoldingPass::run: each
instruction whose evaluation succeeds is folded — its uses are redirected to
the constant immediately (so later instructions of the same sweep see the
constant) and the instruction is dropped (the deferred bulk erase). Returns
the surviving instructions and the Changed flag. -/
def sweep : List FInstr → List FInstr × Bool
  | [] => ([], false)
  | i :: rest =>
    match constantFoldInstruction i with
    | some c => ((sweep (rauwTail i.id c rest)).1, true)
    | none =>
      let r := sweep rest
      (i :: r.1, r.2)
termination_by l => l.length
decreasing_by
  all_goals simp [rauwTail]

/-- The do-while fixed-point loop of phase 2, with explicit fuel; each
changed sweep strictly decreases the instruction count, so the fuel used in
runPass below is proven sufficient. -/
def foldLoopFuel : Nat → List FInstr → List FInstr
  | 0, F => F
  | n + 1, F =>
    if (sweep F).2 = true then foldLoopFuel n (sweep F).1 else (sweep F).1

/-- ConstantFoldingPass::run on the straight-line function model: if the
visitor sweep collects no candidates the pass returns immediately,
otherwise it iterates sweeps to a fixed point. -/
def runPass (F : List FInstr) : List FInstr :=
  if collectCandidates F = [] then F
  else foldLoopFuel (F.length + 1) F

/-- Counterexample instruction for claim C1: fneg of a constant — foldable
by the evaluator, invisible to the visitor. -/
def c1cexInstr : FInstr :=
  { id := 0, op := .fneg, operands := [.const 5] }

/-- Counterexample function for claim C1. -/
def c1cexF : List FInstr := [c1cexInstr]

/-- Witness function for the amended claim C1: one foldable add, one
dependent add folded by the second sweep. -/
def c1witF : List FInstr :=
  [ { id := 0, op := .add, operands := [.const 1, .const 2] },
    { id := 1, op := .add, operands := [.ref 0, .const 3] } ]

end CF

namespace RA

/-- Opcodes relevant to RedundancyAnalysis: the seven commutative ones of
ValueNumberTable::isCommutative, further arithmetic, comparison and GEP
opcodes, and the instruction classes that isAnalyzable rejects. -/
inductive Opcode
  | add
  | fadd
  | mul
  | fmul
  | band
  | bor
  | bxor
  | sub
  | udiv
  | icmp
  | gep
  | phi
  | load
  | store
  | alloca
  | call
  | invoke
  | br
  | ret
deriving DecidableEq

/-- ValueNumberTable::isCommutative. -/
def isCommutative : Opcode → Bool
  | .add | .fadd | .mul | .fmul | .band | .bor | .bxor => true
  | _ => false

/-- An instruction: result value id, opcode, operand value ids, result type
identity, and the attributes the analysis reads (volatility, comparison
predicate, GEP in-bounds flag). -/
structure Instr where
  id : Nat
  op : Opcode
  operands : List Nat
  resultType : Nat
  isVolatile : Bool := false
  predicate : Nat := 0
  inBounds : Bool := false
deriving DecidableEq

/-- Instruction::isTerminator for the modelled opcodes. -/
def Instr.isTerminator (i : Instr) : Bool :=
  match i.op with
  | .br | .ret => true
  | _ => false

/-- Instruction::mayHaveSideEffects for the modelled opcodes: stores, calls
and invokes write memory or may throw; a volatile load also counts. -/
def Instr.mayHaveSideEffects (i : Instr) : Bool :=
  match i.op with
  | .store | .call | .invoke => true
  | .load => i.isVolatile
  | _ => false

/-- RedundancyAnalysis::isAnalyzable, mirroring the source's sequence of
rejection checks. -/
def isAnalyzable (i : Instr) : Bool :=
  if i.op = .phi then false
  else if i.isTerminator = true then false
  else if i.mayHaveSideEffects = true then false
  else if i.isVolatile = true then false
  else if i.op = .load ∨ i.op = .store then false
  else if i.op = .alloca then false
  else if i.op = .call ∨ i.op = .invoke then false
  else true

/-- ExpressionKey from RedundancyAnalysis.h: opcode, operand value numbers
(canonicalized), result type, comparison predicate (0 when not a
comparison) and GEP in-bounds flag (false when not a GEP). operator== is
field-wise equality, which is definitional equality of this structure. -/
structure ExpressionKey where
  opcode : Opcode
  operandValueNumbers : List Nat
  resultType : Nat
  predicate : Nat := 0
  inBounds : Bool := false
deriving DecidableEq

/-- ValueNumberTable::canonicalizeOperands: for a commutative opcode with
exactly two operands, sort the two value numbers ascending. -/
def canonicalizeOperands (ops : List Nat) (op : Opcode) : List Nat :=
  match ops with
  | [a, b] => if isCommutative op = true ∧ b < a then [b, a] else [a, b]
  | l => l

/-- ValueNumberTable state: the next fresh value number, the value-to-VN
map, and the expression table mapping keys to the instructions inserted
under them (each bucket in push_back order). -/
structure ValueNumberTable where
  NextValueNumber : Nat := 1
  ValueNumbers : List (Nat × Nat) := []
  ExpressionTable : List (ExpressionKey × List Instr) := []
deriving DecidableEq

/-- ValueNumberTable::getValueNumber: return the existing number or assign
the next fresh one. -/
def ValueNumberTable.getValueNumber (t : ValueNumberTable) (v : Nat) :
    Nat × ValueNumberTable :=
  match t.ValueNumbers.find? (fun p => p.1 = v) with
  | some p => (p.2, t)
  | none =>
    (t.NextValueNumber,
      { t with
        NextValueNumber := t.NextValueNumber + 1,
        ValueNumbers := t.ValueNumbers ++ [(v, t.NextValueNumber)] })

/-- ValueNumberTable::lookupValueNumber: 0 when the value is unnumbered. -/
def ValueNumberTable.lookupValueNumber (t : ValueNumberTable) (v : Nat) :
    Nat :=
  match t.ValueNumbers.find? (fun p => p.1 = v) with
  | some p => p.2
  | none => 0

/-- ValueNumberTable::createExpressionKey: number the operands (assigning
fresh numbers as needed), canonicalize, and record predicate and in-bounds
attributes for comparisons and GEPs. -/
def ValueNumberTable.createExpressionKey (t : ValueNumberTable) (i : Instr) :
    ExpressionKey × ValueNumberTable :=
  let r := i.operands.foldl
    (fun acc o =>
      let vr := acc.2.getValueNumber o
      (acc.1 ++ [vr.1], vr.2))
    (([] : List Nat), t)
  ({ opcode := i.op,
     operandValueNumbers := canonicalizeOperands r.1 i.op,
     resultType := i.resultType,
     predicate := if i.op = .icmp then i.predicate else 0,
     inBounds := if i.op = .gep then i.inBounds else false }, r.2)

/-- ValueNumberTable::findAvailableValue: look the key up, then return the
first bucket entry that is not the query instruction itself and dominates
the query point. The dominator tree is modelled as a boolean relation DT on
instruction ids. -/
def ValueNumberTable.findAvailableValue (t : ValueNumberTable)
    (Key : ExpressionKey) (QueryPoint : Instr) (DT : Nat → Nat → Bool) :
    Option Instr :=
  match t.ExpressionTable.find? (fun e => e.1 = Key) with
  | none => none
  | some e =>
    e.2.find? (fun cand => cand.id ≠ QueryPoint.id && DT cand.id QueryPoint.id)

/-- ValueNumberTable::addExpression: push_back into the bucket for the key,
creating the bucket if absent. -/
def ValueNumberTable.addExpression (t : ValueNumberTable)
    (Key : ExpressionKey) (i : Instr) : ValueNumberTable :=
  { t with
    ExpressionTable :=
      if t.ExpressionTable.any (fun e => e.1 = Key) then
        t.ExpressionTable.map
          (fun e => if e.1 = Key then (e.1, e.2 ++ [i]) else e)
      else t.ExpressionTable ++ [(Key, [i])] }

/-- All instructions currently stored in the expression table. -/
def tableInstrs (t : ValueNumberTable) : List Instr :=
  t.ExpressionTable.foldr (fun e acc => e.2 ++ acc) []

/-- The loop body of RedundancyAnalysis::processBlock, for one
instruction: non-analyzable instructions are only numbered; analyzable
ones are keyed, matched against an available dominating computation
(recording a redundancy) or inserted into the table, and then numbered. -/
def processInstr (DT : Nat → Nat → Bool)
    (st : ValueNumberTable × List (Instr × Instr)) (i : Instr) :
    ValueNumberTable × List (Instr × Instr) :=
  if isAnalyzable i = false then
    ((st.1.getValueNumber i.id).2, st.2)
  else
    let kr := st.1.createExpressionKey i
    match kr.2.findAvailableValue kr.1 i DT with
    | some avail =>
      (((kr.2.getValueNumber i.id).2), st.2 ++ [(i, avail)])
    | none =>
      ((((kr.2.addExpression kr.1 i).getValueNumber i.id).2), st.2)

/-- RedundancyAnalysis::processBlock. -/
def processBlock (DT : Nat → Nat → Bool) (BB : List Instr)
    (st : ValueNumberTable × List (Instr × Instr)) :
    ValueNumberTable × List (Instr × Instr) :=
  BB.foldl (processInstr DT) st

/-- A function: argument value ids and basic blocks, the blocks listed in
dominator-tree preorder (the traversal order RedundancyAnalysis::run
obtains from depth_first over the dominator tree). -/
structure Func where
  args : List Nat
  blocks : List (List Instr)
deriving DecidableEq

/-- All instructions of a function, in traversal order. -/
def allInstrs (F : Func) : List Instr :=
  F.blocks.foldr (fun bb acc => bb ++ acc) []

/-- RedundancyAnalysis::run: number the arguments, then process the blocks
in dominator-tree preorder; returns the final table state and the
RedundantInstructions map (as the list of pairs in insertion order). -/
def runAnalysisState (F : Func) (DT : Nat → Nat → Bool) :
    ValueNumberTable × List (Instr × Instr) :=
  let vnt0 := F.args.foldl (fun t a => (t.getValueNumber a).2)
    ({} : ValueNumberTable)
  F.blocks.foldl (fun st bb => processBlock DT bb st) (vnt0, [])

/-- The RedundancyInfo map produced by RedundancyAnalysis::run. -/
def runAnalysis (F : Func) (DT : Nat → Nat → Bool) :
    List (Instr × Instr) :=
  (runAnalysisState F DT).2

/-- One use-rewrite step of replaceAllUsesWith: operand occurrences of
value rid become pid. -/
def rauwInstr (rid pid : Nat) (i : Instr) : Instr :=
  { i with operands := i.operands.map (fun o => if o = rid then pid else o) }

/-- replaceAllUsesWith(Redundant, Replacement) over the whole function. -/
def rauwFunc (F : Func) (rid pid : Nat) : Func :=
  { F with blocks := F.blocks.map (fun bb => bb.map (rauwInstr rid pid)) }

/-- One iteration of the elimination loop in
RedundancyEliminationPass::eliminateRedundancies: skip the pair when the
result types differ, otherwise redirect all uses and schedule the redundant
instruction for deletion. -/
def elimStep (st : Func × List Instr) (pr : Instr × Instr) :
    Func × List Instr :=
  if pr.1.resultType ≠ pr.2.resultType then st
  else (rauwFunc st.1 pr.1.id pr.2.id, st.2 ++ [pr.1])

/-- The deferred bulk erase: drop every instruction scheduled for
deletion. -/
def eraseMarked (F : Func) (dels : List Instr) : Func :=
  { F with
    blocks := F.blocks.map
      (fun bb => bb.filter (fun i => !(dels.any (fun d => d.id = i.id)))) }

/-- RedundancyEliminationPass::eliminateRedundancies: nothing to do on an
empty map; otherwise process every pair, erase the scheduled instructions,
and report whether anything was erased. -/
def eliminateRedundancies (F : Func) (RI : List (Instr × Instr)) :
    Func × Bool :=
  if RI = [] then (F, false)
  else
    let r := RI.foldl elimStep (F, [])
    (eraseMarked r.1 r.2, !r.2.isEmpty)

/-- Instruction-level dominance for the straight-line examples below: in a
single block, an instruction dominates exactly the later ones, and ids are
listed in program order. -/
def exDT : Nat → Nat → Bool := fun a b => decide (a < b)

/-- Example: first add of x and y. -/
def exAdd1 : Instr := { id := 2, op := .add, operands := [0, 1], resultType := 0 }

/-- Example: second add of x and y, redundant with exAdd1. -/
def exAdd2 : Instr := { id := 3, op := .add, operands := [0, 1], resultType := 0 }

/-- Example: a subtraction using exAdd2's value. -/
def exSub1 : Instr := { id := 4, op := .sub, operands := [3, 0], resultType := 0 }

/-- Example: a subtraction with a different result type. -/
def exSub2 : Instr := { id := 5, op := .sub, operands := [0, 1], resultType := 1 }

/-- Example function with a redundant add, a user of it, and a
type-distinct instruction. -/
def exF : Func :=
  { args := [0, 1], blocks := [[exAdd1, exAdd2, exSub1, exSub2]] }

/-- Example redundancy map for claim C8: one matched pair and one pair
whose result types differ. -/
def exRI : List (Instr × Instr) := [(exAdd2, exAdd1), (exSub2, exAdd1)]

/-- Example redundancy map for claim C9's permutation witness: two matched
pairs with distinct redundant instructions and a shared replacement. -/
def exRIperm : List (Instr × Instr) := [(exAdd2, exAdd1), (exSub1, exAdd1)]

/-- Volatile-load example of claim C4: two volatile loads of the same
pointer. -/
def volLoad1 : Instr :=
  { id := 1, op := .load, operands := [0], resultType := 0, isVolatile := true }

/-- Second volatile load of the same pointer. -/
def volLoad2 : Instr :=
  { id := 2, op := .load, operands := [0], resultType := 0, isVolatile := true }

/-- Function consisting of the two volatile loads. -/
def volF : Func := { args := [0], blocks := [[volLoad1, volLoad2]] }

/-- Value number table for claim C5's witness, with values 10 and 20
already numbered. -/
def exVNT5 : ValueNumberTable :=
  ((({} : ValueNumberTable).getValueNumber 10).2.getValueNumber 20).2

/-- Claim C5 witness instruction a + b. -/
def exC5ab : Instr := { id := 30, op := .add, operands := [10, 20], resultType := 7 }

/-- Claim C5 witness instruction b + a. -/
def exC5ba : Instr := { id := 30, op := .add, operands := [20, 10], resultType := 7 }

/-- Expression key of the adds of the C9 counterexample. -/
def exKey9 : ExpressionKey :=
  { opcode := .add, operandValueNumbers := [1, 2], resultType := 0 }

/-- Claim C9 counterexample: first available provider. -/
def exP1 : Instr := exAdd1

/-- Claim C9 counterexample: second available provider (dominated by the
first, dominating the query). -/
def exP2 : Instr := exAdd2

/-- Claim C9 counterexample query point: a third add of x and y. -/
def exR9 : Instr := { id := 6, op := .add, operands := [0, 1], resultType := 0 }

/-- Claim C9 counterexample: a user of the query point's value. -/
def exU9 : Instr := { id := 7, op := .sub, operands := [6, 0], resultType := 0 }

/-- Claim C9 counterexample function. -/
def exF9 : Func :=
  { args := [0, 1], blocks := [[exP1, exP2, exR9, exU9]] }

/-- Expression table with the bucket for exKey9 holding the two providers
in one insertion order. -/
def exVNT9a : ValueNumberTable :=
  (({} : ValueNumberTable).addExpression exKey9 exP1).addExpression exKey9 exP2

/-- The same bucket in the opposite insertion order. -/
def exVNT9b : ValueNumberTable :=
  (({} : ValueNumberTable).addExpression exKey9 exP2).addExpression exKey9 exP1

end RA

theorem LU.shrinkWhile_le (p : Nat → Bool) : ∀ f, LU.shrinkWhile p f ≤ f := by
  intro f
  induction f with
  | zero => simp [LU.shrinkWhile]
  | succ n ih =>
    rw [LU.shrinkWhile]
    split
    · exact le_trans ih (Nat.le_succ n)
    · exact le_refl _

theorem LU.shrinkWhile_pos (p : Nat → Bool) :
    ∀ f, 1 ≤ f → 1 ≤ LU.shrinkWhile p f := by
  intro f
  induction f with
  | zero => omega
  | succ n ih =>
    intro _
    rw [LU.shrinkWhile]
    split
    · next h => exact ih (by omega)
    · omega

theorem LU.shrinkWhile_stop (p : Nat → Bool) :
    ∀ f, 1 ≤ f →
      LU.shrinkWhile p f = 1 ∨ p (LU.shrinkWhile p f) = false := by
  intro f
  induction f with
  | zero => omega
  | succ n ih =>
    intro _
    rw [LU.shrinkWhile]
    split
    · next h => exact ih (by omega)
    · next h =>
      by_cases hn : n = 0
      · left
        omega
      · right
        have hp : ¬ p (n + 1) = true := fun hp => h ⟨by omega, hp⟩
        simpa using hp

theorem LU.shrinkWhile_gt (p : Nat → Bool) :
    ∀ f g, LU.shrinkWhile p f < g → g ≤ f → p g = true := by
  intro f
  induction f with
  | zero => intro g h1 h2; simp [LU.shrinkWhile] at h1; omega
  | succ n ih =>
    intro g h1 h2
    rw [LU.shrinkWhile] at h1
    split at h1
    · next hc =>
      by_cases hg : g = n + 1
      · subst hg; exact hc.2
      · exact ih g h1 (by omega)
    · omega

theorem LU.determineStrategy_partial (Config : LU.LoopUnrollConfig)
    (c : LU.LoopUnrollCandidate)
    (hse : ¬(c.HasSideEffects = true ∧ Config.UnrollLoopsWithCalls = false))
    (hnf : ¬(0 < c.TripCount ∧ c.TripCount ≤ Config.FullUnrollMaxCount ∧
      c.InstructionCount * c.TripCount ≤ Config.FullUnrollMaxInstructions))
    (htc : 0 < c.TripCount) :
    LU.determineStrategy Config c = .PartialUnroll := by
  unfold LU.determineStrategy
  rw [if_neg hse, if_neg hnf, if_pos htc]

/-- C3. Corrected. For a loop candidate with known positive trip count that
passes the side-effect guard and misses the full-unroll conditions, the
strategy is PartialUnroll, but the factor is NOT the largest F at most 4
that both divides the trip count and respects the size bound. The source
computes it in two sequential stages: F1 is the largest F at most 4
dividing the trip count, and the returned factor is then the largest value
at most F1 whose unrolled size fits in 400 (bottoming out at 1), which can
fail to divide the trip count. -/
theorem claim_C3 (c : LU.LoopUnrollCandidate)
    (hse : c.HasSideEffects = false) (htc : 0 < c.TripCount)
    (hnf : ¬(c.TripCount ≤ 8 ∧ c.InstructionCount * c.TripCount ≤ 100)) :
    LU.determineStrategy LU.defaultConfig c = .PartialUnroll ∧
    ∃ F1,
      (1 ≤ F1 ∧ F1 ≤ 4 ∧ F1 ∣ c.TripCount ∧
        ∀ g, g ≤ 4 → g ∣ c.TripCount → g ≤ F1) ∧
      1 ≤ LU.calculateUnrollFactor LU.defaultConfig c .PartialUnroll ∧
      LU.calculateUnrollFactor LU.defaultConfig c .PartialUnroll ≤ F1 ∧
      (LU.calculateUnrollFactor LU.defaultConfig c .PartialUnroll = 1 ∨
        c.InstructionCount *
          LU.calculateUnrollFactor LU.defaultConfig c .PartialUnroll ≤ 400) ∧
      ∀ g, LU.calculateUnrollFactor LU.defaultConfig c .PartialUnroll < g →
        g ≤ F1 → 400 < c.InstructionCount * g := by
  constructor
  · exact LU.determineStrategy_partial _ c
      (fun h => by rw [hse] at h; exact absurd h.1 (by simp))
      (fun h => hnf ⟨h.2.1, h.2.2⟩) htc
  · have hcalc : LU.calculateUnrollFactor LU.defaultConfig c .PartialUnroll
        = LU.shrinkWhile (fun f => decide (400 < c.InstructionCount * f))
            (LU.shrinkWhile (fun f => !(c.TripCount % f == 0)) 4) := rfl
    set p1 : Nat → Bool := fun f => !(c.TripCount % f == 0) with hp1
    set p2 : Nat → Bool := fun f => decide (400 < c.InstructionCount * f) with hp2
    set F1 := LU.shrinkWhile p1 4 with hF1
    refine ⟨F1, ⟨LU.shrinkWhile_pos p1 4 (by omega), LU.shrinkWhile_le p1 4, ?_, ?_⟩,
      ?_, ?_, ?_, ?_⟩
    · rcases LU.shrinkWhile_stop p1 4 (by omega) with h | h
      · rw [← hF1] at h
        rw [h]
        exact one_dvd _
      · rw [← hF1] at h
        have : (c.TripCount % F1 == 0) = true := by
          simpa [hp1] using h
        exact Nat.dvd_of_mod_eq_zero (by simpa using this)
    · intro g hg4 hgdvd
      by_contra hlt
      push_neg at hlt
      have hpg : p1 g = true := LU.shrinkWhile_gt p1 4 g (by omega) hg4
      have : c.TripCount % g = 0 := Nat.mod_eq_zero_of_dvd hgdvd
      simp [hp1, this] at hpg
    · rw [hcalc]
      exact LU.shrinkWhile_pos p2 F1 (LU.shrinkWhile_pos p1 4 (by omega))
    · rw [hcalc]
      exact LU.shrinkWhile_le p2 F1
    · rw [hcalc]
      rcases LU.shrinkWhile_stop p2 F1 (LU.shrinkWhile_pos p1 4 (by omega)) with h | h
      · exact Or.inl h
      · right
        simpa [hp2] using h
    · intro g hgt hgle
      rw [hcalc] at hgt
      have hpg : p2 g = true := LU.shrinkWhile_gt p2 F1 g hgt hgle
      exact of_decide_eq_true (by simpa [hp2] using hpg)

/-- C3 counterexample. With trip count 3 and 150 body instructions the
source selects PartialUnroll with factor 2, which does not divide the trip
count, while the largest factor at most 4 that divides the trip count and
respects the size bound is 1. -/
theorem claim_C3_counterexample :
    LU.determineStrategy LU.defaultConfig LU.c3cex = .PartialUnroll ∧
    LU.calculateUnrollFactor LU.defaultConfig LU.c3cex .PartialUnroll = 2 ∧
    ¬(2 ∣ LU.c3cex.TripCount) ∧
    (∀ f, f ≤ LU.defaultConfig.PartialUnrollFactor → f ∣ LU.c3cex.TripCount →
      f * LU.c3cex.InstructionCount ≤ LU.defaultConfig.MaxUnrolledSize →
      f ≤ 1) := by
  refine ⟨by decide, by decide, by decide, ?_⟩
  intro f h4 hdvd hsz
  have h4' : f ≤ 4 := h4
  interval_cases f <;> revert hdvd hsz <;> decide

/-- C3 witness: a side-effect-free loop with trip count 16 and 30 body
instructions, too large to unroll fully, is assigned PartialUnroll. -/
theorem claim_C3_witness :
    LU.c3wit.HasSideEffects = false ∧ 0 < LU.c3wit.TripCount ∧
    ¬(LU.c3wit.TripCount ≤ 8 ∧
      LU.c3wit.InstructionCount * LU.c3wit.TripCount ≤ 100) ∧
    LU.determineStrategy LU.defaultConfig LU.c3wit = .PartialUnroll :=
  ⟨rfl, by decide, by decide, (claim_C3 LU.c3wit rfl (by decide) (by decide)).1⟩

/-- C6. Confirmed. A loop without disqualifying side effects whose trip
count tc satisfies 0 < tc and tc at most FullUnrollMaxCount (8) and
tc times the instruction count at most FullUnrollMaxInstructions (100) is
assigned FullUnroll with factor tc, and the identical loop with trip count
FullUnrollMaxCount + 1 is not assigned FullUnroll. -/
theorem claim_C6 (c : LU.LoopUnrollCandidate)
    (hse : c.HasSideEffects = false) (h1 : 0 < c.TripCount)
    (h2 : c.TripCount ≤ LU.defaultConfig.FullUnrollMaxCount)
    (h3 : c.TripCount * c.InstructionCount ≤
      LU.defaultConfig.FullUnrollMaxInstructions) :
    (LU.determineStrategy LU.defaultConfig c = .FullUnroll ∧
      LU.calculateUnrollFactor LU.defaultConfig c .FullUnroll = c.TripCount) ∧
    LU.determineStrategy LU.defaultConfig
      { c with TripCount := LU.defaultConfig.FullUnrollMaxCount + 1 } ≠
      .FullUnroll := by
  refine ⟨⟨?_, rfl⟩, ?_⟩
  · unfold LU.determineStrategy
    rw [if_neg (fun h => by rw [hse] at h; exact absurd h.1 (by simp)),
      if_pos ⟨h1, h2, by rw [Nat.mul_comm]; exact h3⟩]
  · unfold LU.determineStrategy
    rw [if_neg (fun h => by
      rw [show ({ c with TripCount := LU.defaultConfig.FullUnrollMaxCount + 1 } :
        LU.LoopUnrollCandidate).HasSideEffects = false from hse] at h
      exact absurd h.1 (by simp))]
    rw [if_neg (fun h => by
      have := h.2.1
      simp only [LU.defaultConfig] at this
      omega)]
    rw [if_pos (by simp)]
    intro h
    exact absurd h (by simp)

/-- C6 witness: trip count 8 with 12 body instructions (96 unrolled
instructions) fully unrolls with factor 8. -/
theorem claim_C6_witness :
    LU.c6wit.HasSideEffects = false ∧ 0 < LU.c6wit.TripCount ∧
    LU.c6wit.TripCount ≤ LU.defaultConfig.FullUnrollMaxCount ∧
    LU.c6wit.TripCount * LU.c6wit.InstructionCount ≤
      LU.defaultConfig.FullUnrollMaxInstructions ∧
    LU.determineStrategy LU.defaultConfig LU.c6wit = .FullUnroll ∧
    LU.calculateUnrollFactor LU.defaultConfig LU.c6wit .FullUnroll =
      LU.c6wit.TripCount :=
  ⟨rfl, by decide, by decide, by decide,
    (claim_C6 LU.c6wit rfl (by decide) (by decide) (by decide)).1.1,
    (claim_C6 LU.c6wit rfl (by decide) (by decide) (by decide)).1.2⟩

/-- C7. Corrected. A loop body whose calls all target statically known,
memory-pure (doesNotAccessMemory) callees and which contains nothing
volatile or atomic yields HasSideEffects = false, so with the default
configuration (UnrollLoopsWithCalls = false) the side-effect guard never
fires: for any known trip count the selected strategy is FullUnroll or
PartialUnroll, never the NoUnroll the claim asserts. -/
theorem claim_C7 (body : List LU.LoopInstr)
    (hcall : ∀ i ∈ body, i.isCall = true →
      i.hasCalledFunction = true ∧ i.calleeDoesNotAccessMemory = true)
    (hvol : ∀ i ∈ body, i.isVolatile = false)
    (hatom : ∀ i ∈ body, i.isAtomic = false)
    (tc tm ic : Nat) (htc : 0 < tc) :
    LU.hasSideEffects body = false ∧
    LU.determineStrategy LU.defaultConfig
      { TripCount := tc, TripMultiple := tm, InstructionCount := ic,
        HasSideEffects := LU.hasSideEffects body } ≠ .NoUnroll := by
  have hbody : LU.hasSideEffects body = false := by
    rw [LU.hasSideEffects]
    rw [List.any_eq_false]
    intro i hi
    have hv := hvol i hi
    have ha := hatom i hi
    rw [LU.instrSideEffect, hv, ha]
    by_cases hc : i.isCall = true
    · rcases hcall i hi hc with ⟨hk, hp⟩
      simp [hc, hk, hp]
    · simp [Bool.not_eq_true] at hc
      simp [hc]
  refine ⟨hbody, ?_⟩
  unfold LU.determineStrategy
  rw [if_neg (fun h => by
    have hh := h.1
    simp only at hh
    rw [hbody] at hh
    exact absurd hh (by simp))]
  split <;> simp_all

/-- C7 counterexample: the single memory-pure call body produces
HasSideEffects = false and, with trip count 4 and one body instruction, the
analyzer selects a strategy different from NoUnroll (FullUnroll here),
contradicting the claim. -/
theorem claim_C7_counterexample :
    LU.hasSideEffects LU.c7body = false ∧
    LU.c7cex.HasSideEffects = LU.hasSideEffects LU.c7body ∧
    LU.defaultConfig.UnrollLoopsWithCalls = false ∧
    LU.determineStrategy LU.defaultConfig LU.c7cex = .FullUnroll ∧
    LU.determineStrategy LU.defaultConfig LU.c7cex ≠ .NoUnroll := by
  decide

/-- C7 witness for the amended claim, at the concrete memory-pure-call
body. -/
theorem claim_C7_witness :
    LU.hasSideEffects LU.c7body = false ∧
    LU.determineStrategy LU.defaultConfig
      { TripCount := 4, TripMultiple := 1, InstructionCount := 1,
        HasSideEffects := LU.hasSideEffects LU.c7body } ≠ .NoUnroll :=
  claim_C7 LU.c7body (by decide) (by decide) (by decide) 4 1 1 (by decide)

theorem CF.rauwTail_length (rid : Nat) (c : Int) (l : List CF.FInstr) :
    (CF.rauwTail rid c l).length = l.length := by
  simp [CF.rauwTail]

theorem CF.sweep_length_le (l : List CF.FInstr) :
    (CF.sweep l).1.length ≤ l.length := by
  induction l using CF.sweep.induct with
  | case1 => simp [CF.sweep]
  | case2 i rest c hf ih =>
    rw [CF.sweep]
    simp only [hf]
    calc (CF.sweep (CF.rauwTail i.id c rest)).1.length
        ≤ (CF.rauwTail i.id c rest).length := ih
      _ = rest.length := CF.rauwTail_length _ _ _
      _ ≤ (i :: rest).length := by simp
  | case3 i rest hf ih =>
    rw [CF.sweep]
    simp only [hf]
    simpa using ih

theorem CF.sweep_true_lt (l : List CF.FInstr) :
    (CF.sweep l).2 = true → (CF.sweep l).1.length < l.length := by
  induction l using CF.sweep.induct with
  | case1 => simp [CF.sweep]
  | case2 i rest c hf ih =>
    intro _
    rw [CF.sweep]
    simp only [hf]
    have h1 := CF.sweep_length_le (CF.rauwTail i.id c rest)
    have h2 := CF.rauwTail_length i.id c rest
    simp only [List.length_cons]
    omega
  | case3 i rest hf ih =>
    rw [CF.sweep]
    simp only [hf]
    intro h
    have := ih h
    simp only [List.length_cons]
    omega

theorem CF.sweep_false (l : List CF.FInstr) :
    (CF.sweep l).2 = false →
      (CF.sweep l).1 = l ∧ ∀ i ∈ l, CF.constantFoldInstruction i = none := by
  induction l using CF.sweep.induct with
  | case1 => simp [CF.sweep]
  | case2 i rest c hf ih =>
    rw [CF.sweep]
    simp [hf]
  | case3 i rest hf ih =>
    rw [CF.sweep]
    simp only [hf]
    intro h
    rcases ih h with ⟨he, hall⟩
    refine ⟨by rw [he], ?_⟩
    intro j hj
    rcases List.mem_cons.mp hj with hj | hj
    · rw [hj]; exact hf
    · exact hall j hj

theorem CF.foldLoopFuel_fix :
    ∀ (n : Nat) (F : List CF.FInstr), F.length < n →
      ∀ i ∈ CF.foldLoopFuel n F, CF.constantFoldInstruction i = none := by
  intro n
  induction n with
  | zero => intro F h; omega
  | succ n ih =>
    intro F h
    rw [CF.foldLoopFuel]
    cases hc : (CF.sweep F).2 with
    | true =>
      rw [if_pos rfl]
      exact ih (CF.sweep F).1 (by have := CF.sweep_true_lt F hc; omega)
    | false =>
      rw [if_neg (by simp)]
      intro i hi
      rcases CF.sweep_false F hc with ⟨he, hall⟩
      rw [he] at hi
      exact hall i hi

/-- C1. Corrected. The fixed point of I5 is reached only when the initial
visitor sweep collects at least one candidate: in that case the fold loop
re-evaluates every instruction until a full pass changes nothing, so no
instruction with a defined constant evaluation remains. When the visitor
sweep collects no candidates the pass returns the function unchanged, even
though an instruction outside the visitor's five opcode classes (such as a
unary fneg of a constant) may still have all-constant operands and a
defined constant evaluation. -/
theorem claim_C1 (F : List CF.FInstr) :
    (CF.collectCandidates F ≠ [] →
      ∀ i ∈ CF.runPass F, CF.constantFoldInstruction i = none) ∧
    (CF.collectCandidates F = [] → CF.runPass F = F) := by
  constructor
  · intro h
    rw [CF.runPass, if_neg h]
    exact CF.foldLoopFuel_fix (F.length + 1) F (by omega)
  · intro h
    rw [CF.runPass, if_pos h]

/-- C1 counterexample: a function consisting of one fneg applied to a
constant. The visitor collects no candidate, so the pass returns the
function unchanged, yet the remaining instruction has all-constant operands
and a defined constant evaluation — the claimed fixed point I5 fails on the
no-candidate path. -/
theorem claim_C1_counterexample :
    CF.runPass CF.c1cexF = CF.c1cexF ∧
    CF.c1cexInstr ∈ CF.runPass CF.c1cexF ∧
    CF.allOperandsConstant CF.c1cexInstr = true ∧
    CF.constantFoldInstruction CF.c1cexInstr = some (-5) := by
  decide

/-- C1 witness: a function with a foldable add and a dependent add reaches
the fixed point — nothing foldable remains after the pass. -/
theorem claim_C1_witness :
    CF.collectCandidates CF.c1witF ≠ [] ∧
    ∀ i ∈ CF.runPass CF.c1witF, CF.constantFoldInstruction i = none :=
  ⟨by decide, (claim_C1 CF.c1witF).1 (by decide)⟩

theorem RA.getValueNumber_of_assigned (t : RA.ValueNumberTable) (v : Nat)
    (h : t.lookupValueNumber v ≠ 0) :
    t.getValueNumber v = (t.lookupValueNumber v, t) := by
  unfold RA.ValueNumberTable.getValueNumber RA.ValueNumberTable.lookupValueNumber
  unfold RA.ValueNumberTable.lookupValueNumber at h
  cases hf : t.ValueNumbers.find? (fun p => p.1 = v) with
  | some p => simp
  | none => rw [hf] at h; simp at h

theorem RA.canonicalizeOperands_comm (x y : Nat) (op : RA.Opcode)
    (h : RA.isCommutative op = true) :
    RA.canonicalizeOperands [x, y] op = RA.canonicalizeOperands [y, x] op := by
  simp only [RA.canonicalizeOperands, h, true_and]
  rcases Nat.lt_trichotomy x y with h1 | h1 | h1
  · rw [if_neg (by omega), if_pos h1]
  · subst h1; simp
  · rw [if_pos h1, if_neg (by omega)]

/-- C5. Confirmed. For a commutative two-operand opcode and operands that
already carry value numbers, the expression keys of a op b and b op a
coincide (the operand value numbers are sorted before the key is formed),
and two expression keys are equal exactly when opcode, operand value number
sequence, result type, predicate and in-bounds flag all agree. -/
theorem claim_C5 (t : RA.ValueNumberTable) (a b ii ty pd : Nat) (ib : Bool)
    (op : RA.Opcode) (hcomm : RA.isCommutative op = true)
    (ha : t.lookupValueNumber a ≠ 0) (hb : t.lookupValueNumber b ≠ 0) :
    (t.createExpressionKey
      { id := ii, op := op, operands := [a, b], resultType := ty,
        predicate := pd, inBounds := ib }).1 =
    (t.createExpressionKey
      { id := ii, op := op, operands := [b, a], resultType := ty,
        predicate := pd, inBounds := ib }).1 ∧
    (∀ k1 k2 : RA.ExpressionKey, k1 = k2 ↔
      (k1.opcode = k2.opcode ∧
        k1.operandValueNumbers = k2.operandValueNumbers ∧
        k1.resultType = k2.resultType ∧ k1.predicate = k2.predicate ∧
        k1.inBounds = k2.inBounds)) := by
  constructor
  · have hga := RA.getValueNumber_of_assigned t a ha
    have hgb := RA.getValueNumber_of_assigned t b hb
    unfold RA.ValueNumberTable.createExpressionKey
    simp only [List.foldl_cons, List.foldl_nil, hga, hgb, List.nil_append,
      List.singleton_append]
    rw [RA.canonicalizeOperands_comm _ _ _ hcomm]
  · intro k1 k2
    constructor
    · intro h
      subst h
      exact ⟨rfl, rfl, rfl, rfl, rfl⟩
    · intro ⟨h1, h2, h3, h4, h5⟩
      cases k1
      cases k2
      simp_all

/-- C5 witness at a table where values 10 and 20 are numbered. -/
theorem claim_C5_witness :
    RA.isCommutative .add = true ∧
    RA.exVNT5.lookupValueNumber 10 ≠ 0 ∧
    RA.exVNT5.lookupValueNumber 20 ≠ 0 ∧
    (RA.exVNT5.createExpressionKey RA.exC5ab).1 =
      (RA.exVNT5.createExpressionKey RA.exC5ba).1 :=
  ⟨by decide, by decide, by decide,
    (claim_C5 RA.exVNT5 10 20 30 7 0 false .add (by decide) (by decide)
      (by decide)).1⟩

theorem RA.findAvailableValue_spec (t : RA.ValueNumberTable)
    (key : RA.ExpressionKey) (q : RA.Instr) (DT : Nat → Nat → Bool)
    (p : RA.Instr) (h : t.findAvailableValue key q DT = some p) :
    p.id ≠ q.id ∧ DT p.id q.id = true := by
  unfold RA.ValueNumberTable.findAvailableValue at h
  cases hf : t.ExpressionTable.find? (fun e => decide (e.1 = key)) with
  | none => rw [hf] at h; simp at h
  | some e =>
    rw [hf] at h
    have hp := List.find?_some h
    simp only [Bool.and_eq_true, decide_eq_true_eq] at hp
    exact ⟨hp.1, hp.2⟩

theorem RA.processInstr_map_pres (DT : Nat → Nat → Bool)
    (st : RA.ValueNumberTable × List (RA.Instr × RA.Instr)) (i : RA.Instr)
    (h : ∀ pr ∈ st.2, pr.2.id ≠ pr.1.id ∧ DT pr.2.id pr.1.id = true) :
    ∀ pr ∈ (RA.processInstr DT st i).2,
      pr.2.id ≠ pr.1.id ∧ DT pr.2.id pr.1.id = true := by
  unfold RA.processInstr
  by_cases hA : RA.isAnalyzable i = false
  · rw [if_pos hA]
    exact h
  · rw [if_neg hA]
    cases hm : ((st.1.createExpressionKey i).2).findAvailableValue
        (st.1.createExpressionKey i).1 i DT with
    | some avail =>
      simp only [hm]
      intro pr hpr
      rcases List.mem_append.mp hpr with hpr | hpr
      · exact h pr hpr
      · have : pr = (i, avail) := by simpa using hpr
        subst this
        exact RA.findAvailableValue_spec _ _ _ _ _ hm
    | none =>
      simp only [hm]
      exact h

theorem RA.processList_map_pres (DT : Nat → Nat → Bool)
    (todo : List RA.Instr) :
    ∀ st, (∀ pr ∈ st.2, pr.2.id ≠ pr.1.id ∧ DT pr.2.id pr.1.id = true) →
      ∀ pr ∈ (todo.foldl (RA.processInstr DT) st).2,
        pr.2.id ≠ pr.1.id ∧ DT pr.2.id pr.1.id = true := by
  induction todo with
  | nil => intro st h; exact h
  | cons i rest ih =>
    intro st h
    exact ih (RA.processInstr DT st i) (RA.processInstr_map_pres DT st i h)

theorem RA.foldl_blocks (DT : Nat → Nat → Bool) :
    ∀ (L : List (List RA.Instr)) (st : RA.ValueNumberTable × List (RA.Instr × RA.Instr)),
      L.foldl (fun st bb => RA.processBlock DT bb st) st
        = (L.foldr (fun bb acc => bb ++ acc) []).foldl (RA.processInstr DT) st := by
  intro L
  induction L with
  | nil => intro st; rfl
  | cons bb L ih =>
    intro st
    simp only [List.foldl_cons, List.foldr_cons, List.foldl_append]
    rw [ih]
    rfl

theorem RA.runAnalysisState_eq (F : RA.Func) (DT : Nat → Nat → Bool) :
    RA.runAnalysisState F DT
      = (RA.allInstrs F).foldl (RA.processInstr DT)
          (F.args.foldl (fun t a => (t.getValueNumber a).2)
            ({} : RA.ValueNumberTable), []) := by
  rw [RA.runAnalysisState]
  exact RA.foldl_blocks DT F.blocks _

/-- C2. Confirmed. Every instruction returned by findAvailableValue is
distinct from the query point and reported by the dominator relation as
dominating it, and consequently every pair of the RedundancyInfo map
produced by the analysis consists of a redundant instruction and a strictly
dominating replacement. -/
theorem claim_C2 (DT : Nat → Nat → Bool) :
    (∀ (t : RA.ValueNumberTable) (key : RA.ExpressionKey) (q p : RA.Instr),
      t.findAvailableValue key q DT = some p →
        p.id ≠ q.id ∧ DT p.id q.id = true) ∧
    (∀ (F : RA.Func) (pr : RA.Instr × RA.Instr), pr ∈ RA.runAnalysis F DT →
      pr.2.id ≠ pr.1.id ∧ DT pr.2.id pr.1.id = true) := by
  constructor
  · intro t key q p h
    exact RA.findAvailableValue_spec t key q DT p h
  · intro F pr hpr
    rw [RA.runAnalysis, RA.runAnalysisState_eq] at hpr
    exact RA.processList_map_pres DT (RA.allInstrs F) _ (by simp) pr hpr

/-- C2 witness: in a block with two identical adds the second is mapped to
the first, which is distinct and dominating. -/
theorem claim_C2_witness :
    (RA.exAdd2, RA.exAdd1) ∈ RA.runAnalysis RA.exF RA.exDT ∧
    RA.exAdd1.id ≠ RA.exAdd2.id ∧ RA.exDT RA.exAdd1.id RA.exAdd2.id = true :=
  ⟨by decide,
    ((claim_C2 RA.exDT).2 RA.exF (RA.exAdd2, RA.exAdd1) (by decide)).1,
    ((claim_C2 RA.exDT).2 RA.exF (RA.exAdd2, RA.exAdd1) (by decide)).2⟩

theorem RA.getValueNumber_ExpressionTable (t : RA.ValueNumberTable) (v : Nat) :
    ((t.getValueNumber v).2).ExpressionTable = t.ExpressionTable := by
  unfold RA.ValueNumberTable.getValueNumber
  cases t.ValueNumbers.find? (fun p => decide (p.1 = v)) <;> simp

theorem RA.foldVN_ExpressionTable (ops : List Nat) :
    ∀ (acc : List Nat) (t : RA.ValueNumberTable),
      ((ops.foldl (fun acc o =>
          let vr := acc.2.getValueNumber o
          (acc.1 ++ [vr.1], vr.2)) (acc, t)).2).ExpressionTable
        = t.ExpressionTable := by
  induction ops with
  | nil => intro acc t; rfl
  | cons o rest ih =>
    intro acc t
    simp only [List.foldl_cons]
    rw [ih]
    exact RA.getValueNumber_ExpressionTable t o

theorem RA.createExpressionKey_ExpressionTable (t : RA.ValueNumberTable)
    (i : RA.Instr) :
    ((t.createExpressionKey i).2).ExpressionTable = t.ExpressionTable := by
  unfold RA.ValueNumberTable.createExpressionKey
  exact RA.foldVN_ExpressionTable i.operands [] t

theorem RA.mem_foldr_buckets (x : RA.Instr) :
    ∀ (L : List (RA.ExpressionKey × List RA.Instr)),
      x ∈ L.foldr (fun e acc => e.2 ++ acc) [] ↔ ∃ e, e ∈ L ∧ x ∈ e.2 := by
  intro L
  induction L with
  | nil => simp
  | cons e L ih =>
    simp only [List.foldr_cons, List.mem_append, ih, List.mem_cons]
    constructor
    · rintro (hx | ⟨e', he', hx⟩)
      · exact ⟨e, Or.inl rfl, hx⟩
      · exact ⟨e', Or.inr he', hx⟩
    · rintro ⟨e', he' | he', hx⟩
      · subst he'; exact Or.inl hx
      · exact Or.inr ⟨e', he', hx⟩

theorem RA.mem_tableInstrs (x : RA.Instr) (t : RA.ValueNumberTable) :
    x ∈ RA.tableInstrs t ↔ ∃ e, e ∈ t.ExpressionTable ∧ x ∈ e.2 := by
  unfold RA.tableInstrs
  exact RA.mem_foldr_buckets x t.ExpressionTable

theorem RA.mem_tableInstrs_addExpression (t : RA.ValueNumberTable)
    (k : RA.ExpressionKey) (i x : RA.Instr) :
    x ∈ RA.tableInstrs (t.addExpression k i) ↔
      x ∈ RA.tableInstrs t ∨ x = i := by
  rw [RA.mem_tableInstrs, RA.mem_tableInstrs]
  unfold RA.ValueNumberTable.addExpression
  by_cases hany : t.ExpressionTable.any (fun e => decide (e.1 = k)) = true
  · rw [if_pos hany]
    constructor
    · rintro ⟨e', he', hx⟩
      rcases List.mem_map.mp he' with ⟨e, he, hfe⟩
      by_cases hek : e.1 = k
      · rw [if_pos hek] at hfe
        subst hfe
        simp only [List.mem_append, List.mem_singleton] at hx
        rcases hx with hx | hx
        · exact Or.inl ⟨e, he, hx⟩
        · exact Or.inr hx
      · rw [if_neg hek] at hfe
        subst hfe
        exact Or.inl ⟨e, he, hx⟩
    · rintro (⟨e, he, hx⟩ | hx)
      · by_cases hek : e.1 = k
        · exact ⟨(e.1, e.2 ++ [i]), List.mem_map.mpr ⟨e, he, by rw [if_pos hek]⟩,
            by simp [hx]⟩
        · exact ⟨e, List.mem_map.mpr ⟨e, he, by rw [if_neg hek]⟩, hx⟩
      · rcases List.any_eq_true.mp hany with ⟨e, he, hek⟩
        simp only [decide_eq_true_eq] at hek
        exact ⟨(e.1, e.2 ++ [i]), List.mem_map.mpr ⟨e, he, by rw [if_pos hek]⟩,
          by simp [hx]⟩
  · rw [if_neg hany]
    constructor
    · rintro ⟨e', he', hx⟩
      rcases List.mem_append.mp he' with he' | he'
      · exact Or.inl ⟨e', he', hx⟩
      · simp only [List.mem_singleton] at he'
        subst he'
        simp only [List.mem_singleton] at hx
        exact Or.inr hx
    · rintro (⟨e, he, hx⟩ | hx)
      · exact ⟨e, List.mem_append.mpr (Or.inl he), hx⟩
      · exact ⟨(k, [i]), List.mem_append.mpr (Or.inr (by simp)), by simp [hx]⟩

theorem RA.tableInstrs_getValueNumber (t : RA.ValueNumberTable) (v : Nat) :
    RA.tableInstrs ((t.getValueNumber v).2) = RA.tableInstrs t := by
  unfold RA.tableInstrs
  rw [RA.getValueNumber_ExpressionTable]

theorem RA.tableInstrs_createExpressionKey (t : RA.ValueNumberTable)
    (i : RA.Instr) :
    RA.tableInstrs ((t.createExpressionKey i).2) = RA.tableInstrs t := by
  unfold RA.tableInstrs
  rw [RA.createExpressionKey_ExpressionTable]

theorem RA.findAvailableValue_mem (t : RA.ValueNumberTable)
    (key : RA.ExpressionKey) (q : RA.Instr) (DT : Nat → Nat → Bool)
    (p : RA.Instr) (h : t.findAvailableValue key q DT = some p) :
    p ∈ RA.tableInstrs t := by
  unfold RA.ValueNumberTable.findAvailableValue at h
  cases hf : t.ExpressionTable.find? (fun e => decide (e.1 = key)) with
  | none => rw [hf] at h; simp at h
  | some e =>
    rw [hf] at h
    exact (RA.mem_tableInstrs p t).mpr
      ⟨e, List.mem_of_find?_eq_some hf, List.mem_of_find?_eq_some h⟩

theorem RA.processInstr_analyzable_pres (DT : Nat → Nat → Bool)
    (st : RA.ValueNumberTable × List (RA.Instr × RA.Instr)) (i : RA.Instr)
    (h1 : ∀ x ∈ RA.tableInstrs st.1, RA.isAnalyzable x = true)
    (h2 : ∀ pr ∈ st.2, RA.isAnalyzable pr.1 = true) :
    (∀ x ∈ RA.tableInstrs (RA.processInstr DT st i).1,
      RA.isAnalyzable x = true) ∧
    (∀ pr ∈ (RA.processInstr DT st i).2, RA.isAnalyzable pr.1 = true) := by
  unfold RA.processInstr
  by_cases hA : RA.isAnalyzable i = false
  · rw [if_pos hA]
    refine ⟨?_, h2⟩
    intro x hx
    rw [RA.tableInstrs_getValueNumber] at hx
    exact h1 x hx
  · have hA' : RA.isAnalyzable i = true := by
      cases h : RA.isAnalyzable i
      · exact absurd h hA
      · rfl
    rw [if_neg hA]
    cases hm : ((st.1.createExpressionKey i).2).findAvailableValue
        (st.1.createExpressionKey i).1 i DT with
    | some avail =>
      simp only [hm]
      constructor
      · intro x hx
        rw [RA.tableInstrs_getValueNumber,
          RA.tableInstrs_createExpressionKey] at hx
        exact h1 x hx
      · intro pr hpr
        rcases List.mem_append.mp hpr with hpr | hpr
        · exact h2 pr hpr
        · have : pr = (i, avail) := by simpa using hpr
          subst this
          exact hA'
    | none =>
      simp only [hm]
      refine ⟨?_, h2⟩
      intro x hx
      rw [RA.tableInstrs_getValueNumber] at hx
      rcases (RA.mem_tableInstrs_addExpression _ _ _ _).mp hx with hx | hx
      · rw [RA.tableInstrs_createExpressionKey] at hx
        exact h1 x hx
      · subst hx
        exact hA'

theorem RA.processList_analyzable_pres (DT : Nat → Nat → Bool)
    (todo : List RA.Instr) :
    ∀ st, (∀ x ∈ RA.tableInstrs st.1, RA.isAnalyzable x = true) →
      (∀ pr ∈ st.2, RA.isAnalyzable pr.1 = true) →
      (∀ x ∈ RA.tableInstrs (todo.foldl (RA.processInstr DT) st).1,
        RA.isAnalyzable x = true) ∧
      (∀ pr ∈ (todo.foldl (RA.processInstr DT) st).2,
        RA.isAnalyzable pr.1 = true) := by
  induction todo with
  | nil => intro st h1 h2; exact ⟨h1, h2⟩
  | cons i rest ih =>
    intro st h1 h2
    rcases RA.processInstr_analyzable_pres DT st i h1 h2 with ⟨h1', h2'⟩
    exact ih (RA.processInstr DT st i) h1' h2'

theorem RA.argsInit_ExpressionTable (args : List Nat) :
    ∀ t : RA.ValueNumberTable,
      (args.foldl (fun t a => (t.getValueNumber a).2) t).ExpressionTable
        = t.ExpressionTable := by
  induction args with
  | nil => intro t; rfl
  | cons a rest ih =>
    intro t
    simp only [List.foldl_cons]
    rw [ih, RA.getValueNumber_ExpressionTable]

theorem RA.getValueNumber_lookup_mono (t : RA.ValueNumberTable) (v w : Nat)
    (h : t.lookupValueNumber w ≠ 0) :
    ((t.getValueNumber v).2).lookupValueNumber w ≠ 0 := by
  unfold RA.ValueNumberTable.getValueNumber
  cases hf : t.ValueNumbers.find? (fun p => decide (p.1 = v)) with
  | some p => simpa using h
  | none =>
    unfold RA.ValueNumberTable.lookupValueNumber at h ⊢
    cases hw : t.ValueNumbers.find? (fun p => decide (p.1 = w)) with
    | none => rw [hw] at h; simp at h
    | some q =>
      rw [hw] at h
      simp only [List.find?_append, hw, Option.or_some]
      exact h

theorem RA.getValueNumber_inv (t : RA.ValueNumberTable) (v : Nat)
    (h1 : 1 ≤ t.NextValueNumber) (h2 : ∀ p ∈ t.ValueNumbers, 1 ≤ p.2) :
    1 ≤ ((t.getValueNumber v).2).NextValueNumber ∧
      ∀ p ∈ ((t.getValueNumber v).2).ValueNumbers, 1 ≤ p.2 := by
  unfold RA.ValueNumberTable.getValueNumber
  cases hf : t.ValueNumbers.find? (fun p => decide (p.1 = v)) with
  | some p => exact ⟨h1, h2⟩
  | none =>
    refine ⟨by simp, ?_⟩
    intro p hp
    simp only [List.mem_append, List.mem_singleton] at hp
    rcases hp with hp | hp
    · exact h2 p hp
    · subst hp; simpa using h1

theorem RA.getValueNumber_lookup_self (t : RA.ValueNumberTable) (v : Nat)
    (h1 : 1 ≤ t.NextValueNumber) (h2 : ∀ p ∈ t.ValueNumbers, 1 ≤ p.2) :
    ((t.getValueNumber v).2).lookupValueNumber v ≠ 0 := by
  unfold RA.ValueNumberTable.getValueNumber
  cases hf : t.ValueNumbers.find? (fun p => decide (p.1 = v)) with
  | some p =>
    have hmem := List.mem_of_find?_eq_some hf
    have hp := h2 p hmem
    unfold RA.ValueNumberTable.lookupValueNumber
    rw [hf]
    show p.2 ≠ 0
    omega
  | none =>
    unfold RA.ValueNumberTable.lookupValueNumber
    simp only [List.find?_append, hf, Option.none_or, List.find?_cons,
      decide_True]
    show t.NextValueNumber ≠ 0
    omega

theorem RA.foldVN_lookup_mono (ops : List Nat) :
    ∀ (acc : List Nat) (t : RA.ValueNumberTable) (w : Nat),
      t.lookupValueNumber w ≠ 0 →
      ((ops.foldl (fun acc o =>
          let vr := acc.2.getValueNumber o
          (acc.1 ++ [vr.1], vr.2)) (acc, t)).2).lookupValueNumber w ≠ 0 := by
  induction ops with
  | nil => intro acc t w h; exact h
  | cons o rest ih =>
    intro acc t w h
    simp only [List.foldl_cons]
    exact ih _ _ w (RA.getValueNumber_lookup_mono t o w h)

theorem RA.foldVN_inv (ops : List Nat) :
    ∀ (acc : List Nat) (t : RA.ValueNumberTable),
      1 ≤ t.NextValueNumber → (∀ p ∈ t.ValueNumbers, 1 ≤ p.2) →
      1 ≤ ((ops.foldl (fun acc o =>
          let vr := acc.2.getValueNumber o
          (acc.1 ++ [vr.1], vr.2)) (acc, t)).2).NextValueNumber ∧
      ∀ p ∈ ((ops.foldl (fun acc o =>
          let vr := acc.2.getValueNumber o
          (acc.1 ++ [vr.1], vr.2)) (acc, t)).2).ValueNumbers, 1 ≤ p.2 := by
  induction ops with
  | nil => intro acc t h1 h2; exact ⟨h1, h2⟩
  | cons o rest ih =>
    intro acc t h1 h2
    simp only [List.foldl_cons]
    rcases RA.getValueNumber_inv t o h1 h2 with ⟨h1', h2'⟩
    exact ih _ _ h1' h2'

theorem RA.createExpressionKey_lookup_mono (t : RA.ValueNumberTable)
    (i : RA.Instr) (w : Nat) (h : t.lookupValueNumber w ≠ 0) :
    ((t.createExpressionKey i).2).lookupValueNumber w ≠ 0 := by
  unfold RA.ValueNumberTable.createExpressionKey
  exact RA.foldVN_lookup_mono i.operands [] t w h

theorem RA.createExpressionKey_inv (t : RA.ValueNumberTable) (i : RA.Instr)
    (h1 : 1 ≤ t.NextValueNumber) (h2 : ∀ p ∈ t.ValueNumbers, 1 ≤ p.2) :
    1 ≤ ((t.createExpressionKey i).2).NextValueNumber ∧
      ∀ p ∈ ((t.createExpressionKey i).2).ValueNumbers, 1 ≤ p.2 := by
  unfold RA.ValueNumberTable.createExpressionKey
  exact RA.foldVN_inv i.operands [] t h1 h2

theorem RA.addExpression_ValueNumbers (t : RA.ValueNumberTable)
    (k : RA.ExpressionKey) (i : RA.Instr) :
    (t.addExpression k i).ValueNumbers = t.ValueNumbers := rfl

theorem RA.addExpression_NextValueNumber (t : RA.ValueNumberTable)
    (k : RA.ExpressionKey) (i : RA.Instr) :
    (t.addExpression k i).NextValueNumber = t.NextValueNumber := rfl

theorem RA.addExpression_lookup (t : RA.ValueNumberTable)
    (k : RA.ExpressionKey) (i : RA.Instr) (w : Nat) :
    (t.addExpression k i).lookupValueNumber w = t.lookupValueNumber w := rfl

theorem RA.processInstr_inv (DT : Nat → Nat → Bool)
    (st : RA.ValueNumberTable × List (RA.Instr × RA.Instr)) (i : RA.Instr)
    (h1 : 1 ≤ st.1.NextValueNumber)
    (h2 : ∀ p ∈ st.1.ValueNumbers, 1 ≤ p.2) :
    1 ≤ (RA.processInstr DT st i).1.NextValueNumber ∧
      ∀ p ∈ (RA.processInstr DT st i).1.ValueNumbers, 1 ≤ p.2 := by
  unfold RA.processInstr
  by_cases hA : RA.isAnalyzable i = false
  · rw [if_pos hA]
    exact RA.getValueNumber_inv st.1 i.id h1 h2
  · rw [if_neg hA]
    rcases RA.createExpressionKey_inv st.1 i h1 h2 with ⟨h1', h2'⟩
    cases hm : ((st.1.createExpressionKey i).2).findAvailableValue
        (st.1.createExpressionKey i).1 i DT with
    | some avail =>
      simp only [hm]
      exact RA.getValueNumber_inv _ i.id h1' h2'
    | none =>
      simp only [hm]
      exact RA.getValueNumber_inv _ i.id
        (by rw [RA.addExpression_NextValueNumber]; exact h1')
        (by rw [RA.addExpression_ValueNumbers]; exact h2')

theorem RA.processInstr_lookup_mono (DT : Nat → Nat → Bool)
    (st : RA.ValueNumberTable × List (RA.Instr × RA.Instr)) (i : RA.Instr)
    (w : Nat) (h : st.1.lookupValueNumber w ≠ 0) :
    (RA.processInstr DT st i).1.lookupValueNumber w ≠ 0 := by
  unfold RA.processInstr
  by_cases hA : RA.isAnalyzable i = false
  · rw [if_pos hA]
    exact RA.getValueNumber_lookup_mono st.1 i.id w h
  · rw [if_neg hA]
    have h' := RA.createExpressionKey_lookup_mono st.1 i w h
    cases hm : ((st.1.createExpressionKey i).2).findAvailableValue
        (st.1.createExpressionKey i).1 i DT with
    | some avail =>
      simp only [hm]
      exact RA.getValueNumber_lookup_mono _ i.id w h'
    | none =>
      simp only [hm]
      exact RA.getValueNumber_lookup_mono _ i.id w
        (by rw [RA.addExpression_lookup]; exact h')

theorem RA.processInstr_lookup_self (DT : Nat → Nat → Bool)
    (st : RA.ValueNumberTable × List (RA.Instr × RA.Instr)) (i : RA.Instr)
    (h1 : 1 ≤ st.1.NextValueNumber)
    (h2 : ∀ p ∈ st.1.ValueNumbers, 1 ≤ p.2) :
    (RA.processInstr DT st i).1.lookupValueNumber i.id ≠ 0 := by
  unfold RA.processInstr
  by_cases hA : RA.isAnalyzable i = false
  · rw [if_pos hA]
    exact RA.getValueNumber_lookup_self st.1 i.id h1 h2
  · rw [if_neg hA]
    rcases RA.createExpressionKey_inv st.1 i h1 h2 with ⟨h1', h2'⟩
    cases hm : ((st.1.createExpressionKey i).2).findAvailableValue
        (st.1.createExpressionKey i).1 i DT with
    | some avail =>
      simp only [hm]
      exact RA.getValueNumber_lookup_self _ i.id h1' h2'
    | none =>
      simp only [hm]
      exact RA.getValueNumber_lookup_self _ i.id
        (by rw [RA.addExpression_NextValueNumber]; exact h1')
        (by rw [RA.addExpression_ValueNumbers]; exact h2')

theorem RA.processList_inv (DT : Nat → Nat → Bool) (todo : List RA.Instr) :
    ∀ st, 1 ≤ st.1.NextValueNumber →
      (∀ p ∈ st.1.ValueNumbers, 1 ≤ p.2) →
      1 ≤ (todo.foldl (RA.processInstr DT) st).1.NextValueNumber ∧
      ∀ p ∈ (todo.foldl (RA.processInstr DT) st).1.ValueNumbers, 1 ≤ p.2 := by
  induction todo with
  | nil => intro st h1 h2; exact ⟨h1, h2⟩
  | cons i rest ih =>
    intro st h1 h2
    rcases RA.processInstr_inv DT st i h1 h2 with ⟨h1', h2'⟩
    exact ih (RA.processInstr DT st i) h1' h2'

theorem RA.processList_lookup_mono (DT : Nat → Nat → Bool)
    (todo : List RA.Instr) :
    ∀ st (w : Nat), st.1.lookupValueNumber w ≠ 0 →
      (todo.foldl (RA.processInstr DT) st).1.lookupValueNumber w ≠ 0 := by
  induction todo with
  | nil => intro st w h; exact h
  | cons i rest ih =>
    intro st w h
    exact ih (RA.processInstr DT st i) w
      (RA.processInstr_lookup_mono DT st i w h)

theorem RA.processList_numbered (DT : Nat → Nat → Bool)
    (todo : List RA.Instr) :
    ∀ st, 1 ≤ st.1.NextValueNumber →
      (∀ p ∈ st.1.ValueNumbers, 1 ≤ p.2) →
      ∀ j ∈ todo,
        (todo.foldl (RA.processInstr DT) st).1.lookupValueNumber j.id ≠ 0 := by
  induction todo with
  | nil => intro st _ _ j hj; simp at hj
  | cons i rest ih =>
    intro st h1 h2 j hj
    simp only [List.foldl_cons]
    rcases List.mem_cons.mp hj with hj | hj
    · subst hj
      exact RA.processList_lookup_mono DT rest (RA.processInstr DT st j) j.id
        (RA.processInstr_lookup_self DT st j h1 h2)
    · rcases RA.processInstr_inv DT st i h1 h2 with ⟨h1', h2'⟩
      exact ih (RA.processInstr DT st i) h1' h2' j hj

theorem RA.argsFold_inv (args : List Nat) :
    ∀ t : RA.ValueNumberTable, 1 ≤ t.NextValueNumber →
      (∀ p ∈ t.ValueNumbers, 1 ≤ p.2) →
      1 ≤ (args.foldl (fun t a => (t.getValueNumber a).2) t).NextValueNumber ∧
      ∀ p ∈ (args.foldl (fun t a => (t.getValueNumber a).2) t).ValueNumbers,
        1 ≤ p.2 := by
  induction args with
  | nil => intro t h1 h2; exact ⟨h1, h2⟩
  | cons a rest ih =>
    intro t h1 h2
    simp only [List.foldl_cons]
    rcases RA.getValueNumber_inv t a h1 h2 with ⟨h1', h2'⟩
    exact ih _ h1' h2'

/-- C4. Confirmed. The expression table only ever holds analyzable
instructions, every key of the RedundantInstructions map is analyzable (so
a non-analyzable instruction is never such a key), every instruction of the
function is assigned a nonzero value number, and in the concrete
two-volatile-loads example nothing enters the expression table, nothing is
mapped as redundant, and the eliminator leaves both loads in place. -/
theorem claim_C4 (F : RA.Func) (DT : Nat → Nat → Bool) :
    (∀ x ∈ RA.tableInstrs (RA.runAnalysisState F DT).1,
      RA.isAnalyzable x = true) ∧
    (∀ pr ∈ (RA.runAnalysisState F DT).2, RA.isAnalyzable pr.1 = true) ∧
    (∀ i ∈ RA.allInstrs F,
      ((RA.runAnalysisState F DT).1).lookupValueNumber i.id ≠ 0) ∧
    ((RA.runAnalysisState RA.volF RA.exDT).2 = [] ∧
      RA.tableInstrs (RA.runAnalysisState RA.volF RA.exDT).1 = [] ∧
      RA.eliminateRedundancies RA.volF (RA.runAnalysisState RA.volF RA.exDT).2
        = (RA.volF, false)) := by
  rw [RA.runAnalysisState_eq]
  have htab0 : RA.tableInstrs
      (F.args.foldl (fun t a => (t.getValueNumber a).2)
        ({} : RA.ValueNumberTable)) = [] := by
    unfold RA.tableInstrs
    rw [RA.argsInit_ExpressionTable]
    rfl
  rcases RA.argsFold_inv F.args ({} : RA.ValueNumberTable)
      (by simp [RA.ValueNumberTable.mk]) (by simp) with ⟨hi1, hi2⟩
  refine ⟨?_, ?_, ?_, by decide, by decide, by decide⟩
  · exact (RA.processList_analyzable_pres DT (RA.allInstrs F) _
      (by rw [htab0]; simp) (by simp)).1
  · exact (RA.processList_analyzable_pres DT (RA.allInstrs F) _
      (by rw [htab0]; simp) (by simp)).2
  · exact RA.processList_numbered DT (RA.allInstrs F) _ hi1 hi2

/-- C4 witness: in the two-identical-adds function the redundant add is a
map key and is analyzable, and the first add sits in the expression table
and is analyzable. -/
theorem claim_C4_witness :
    (RA.exAdd2, RA.exAdd1) ∈ (RA.runAnalysisState RA.exF RA.exDT).2 ∧
    RA.isAnalyzable RA.exAdd2 = true ∧
    RA.exAdd1 ∈ RA.tableInstrs (RA.runAnalysisState RA.exF RA.exDT).1 ∧
    RA.isAnalyzable RA.exAdd1 = true :=
  ⟨by decide,
    (claim_C4 RA.exF RA.exDT).2.1 (RA.exAdd2, RA.exAdd1) (by decide),
    by decide,
    (claim_C4 RA.exF RA.exDT).1 RA.exAdd1 (by decide)⟩

theorem RA.processInstr_keys_table (DT : Nat → Nat → Bool)
    (st : RA.ValueNumberTable × List (RA.Instr × RA.Instr)) (i : RA.Instr)
    (done : List Nat) (hfresh : i.id ∉ done)
    (h3 : ∀ x ∈ RA.tableInstrs st.1, x.id ∈ done)
    (h4 : ∀ pr ∈ st.2, pr.1.id ∈ done)
    (h5 : ∀ pr ∈ st.2, ∀ x ∈ RA.tableInstrs st.1, pr.1.id ≠ x.id)
    (h6 : ∀ pr ∈ st.2, pr.2 ∈ RA.tableInstrs st.1) :
    (∀ x ∈ RA.tableInstrs (RA.processInstr DT st i).1, x.id ∈ i.id :: done) ∧
    (∀ pr ∈ (RA.processInstr DT st i).2, pr.1.id ∈ i.id :: done) ∧
    (∀ pr ∈ (RA.processInstr DT st i).2,
      ∀ x ∈ RA.tableInstrs (RA.processInstr DT st i).1, pr.1.id ≠ x.id) ∧
    (∀ pr ∈ (RA.processInstr DT st i).2,
      pr.2 ∈ RA.tableInstrs (RA.processInstr DT st i).1) := by
  unfold RA.processInstr
  by_cases hA : RA.isAnalyzable i = false
  · rw [if_pos hA]
    simp only [RA.tableInstrs_getValueNumber]
    exact ⟨fun x hx => List.mem_cons_of_mem _ (h3 x hx),
      fun pr hpr => List.mem_cons_of_mem _ (h4 pr hpr), h5, h6⟩
  · rw [if_neg hA]
    cases hm : ((st.1.createExpressionKey i).2).findAvailableValue
        (st.1.createExpressionKey i).1 i DT with
    | some avail =>
      simp only [hm, RA.tableInstrs_getValueNumber,
        RA.tableInstrs_createExpressionKey]
      have havail : avail ∈ RA.tableInstrs st.1 := by
        have := RA.findAvailableValue_mem _ _ _ _ _ hm
        rwa [RA.tableInstrs_createExpressionKey] at this
      refine ⟨fun x hx => List.mem_cons_of_mem _ (h3 x hx), ?_, ?_, ?_⟩
      · intro pr hpr
        rcases List.mem_append.mp hpr with hpr | hpr
        · exact List.mem_cons_of_mem _ (h4 pr hpr)
        · have : pr = (i, avail) := by simpa using hpr
          subst this
          exact List.mem_cons_self _ _
      · intro pr hpr x hx
        rcases List.mem_append.mp hpr with hpr | hpr
        · exact h5 pr hpr x hx
        · have : pr = (i, avail) := by simpa using hpr
          subst this
          intro heq
          exact hfresh (heq ▸ h3 x hx)
      · intro pr hpr
        rcases List.mem_append.mp hpr with hpr | hpr
        · exact h6 pr hpr
        · have : pr = (i, avail) := by simpa using hpr
          subst this
          exact havail
    | none =>
      simp only [hm, RA.tableInstrs_getValueNumber]
      refine ⟨?_, fun pr hpr => List.mem_cons_of_mem _ (h4 pr hpr), ?_, ?_⟩
      · intro x hx
        rcases (RA.mem_tableInstrs_addExpression _ _ _ _).mp hx with hx | hx
        · rw [RA.tableInstrs_createExpressionKey] at hx
          exact List.mem_cons_of_mem _ (h3 x hx)
        · subst hx
          exact List.mem_cons_self _ _
      · intro pr hpr x hx
        rcases (RA.mem_tableInstrs_addExpression _ _ _ _).mp hx with hx | hx
        · rw [RA.tableInstrs_createExpressionKey] at hx
          exact h5 pr hpr x hx
        · subst hx
          intro heq
          exact hfresh (heq ▸ h4 pr hpr)
      · intro pr hpr
        apply (RA.mem_tableInstrs_addExpression _ _ _ _).mpr
        left
        rw [RA.tableInstrs_createExpressionKey]
        exact h6 pr hpr

theorem RA.processList_keys_table (DT : Nat → Nat → Bool) :
    ∀ (todo : List RA.Instr) (done : List Nat)
      (st : RA.ValueNumberTable × List (RA.Instr × RA.Instr)),
      (todo.map RA.Instr.id).Nodup →
      (∀ i ∈ todo, i.id ∉ done) →
      (∀ x ∈ RA.tableInstrs st.1, x.id ∈ done) →
      (∀ pr ∈ st.2, pr.1.id ∈ done) →
      (∀ pr ∈ st.2, ∀ x ∈ RA.tableInstrs st.1, pr.1.id ≠ x.id) →
      (∀ pr ∈ st.2, pr.2 ∈ RA.tableInstrs st.1) →
      (∀ pr ∈ (todo.foldl (RA.processInstr DT) st).2,
        ∀ x ∈ RA.tableInstrs (todo.foldl (RA.processInstr DT) st).1,
          pr.1.id ≠ x.id) ∧
      (∀ pr ∈ (todo.foldl (RA.processInstr DT) st).2,
        pr.2 ∈ RA.tableInstrs (todo.foldl (RA.processInstr DT) st).1) := by
  intro todo
  induction todo with
  | nil => intro done st _ _ _ _ h5 h6; exact ⟨h5, h6⟩
  | cons i rest ih =>
    intro done st hnd hfr h3 h4 h5 h6
    simp only [List.map_cons, List.nodup_cons] at hnd
    rcases RA.processInstr_keys_table DT st i done
        (hfr i (List.mem_cons_self _ _)) h3 h4 h5 h6 with ⟨g3, g4, g5, g6⟩
    simp only [List.foldl_cons]
    refine ih (i.id :: done) (RA.processInstr DT st i) hnd.2 ?_ g3 g4 g5 g6
    intro j hj
    simp only [List.mem_cons]
    rintro (hji | hji)
    · exact hnd.1 (hji ▸ List.mem_map_of_mem RA.Instr.id hj)
    · exact hfr j (List.mem_cons_of_mem _ hj) hji

/-- C10. Confirmed. Under distinct instruction identities, no replacement
(map value) of the RedundancyInfo map is itself a key of the map: a
redundant instruction is never inserted into the expression table, every
replacement comes from the table, so replacement chains cannot occur. -/
theorem claim_C10 (F : RA.Func) (DT : Nat → Nat → Bool)
    (hnd : ((RA.allInstrs F).map RA.Instr.id).Nodup) :
    ∀ pr ∈ RA.runAnalysis F DT, ∀ qr ∈ RA.runAnalysis F DT,
      pr.2.id ≠ qr.1.id := by
  intro pr hpr qr hqr
  rw [RA.runAnalysis, RA.runAnalysisState_eq] at hpr hqr
  have htab0 : RA.tableInstrs
      (F.args.foldl (fun t a => (t.getValueNumber a).2)
        ({} : RA.ValueNumberTable)) = [] := by
    unfold RA.tableInstrs
    rw [RA.argsInit_ExpressionTable]
    rfl
  rcases RA.processList_keys_table DT (RA.allInstrs F) []
      (_, []) hnd (by simp) (by rw [htab0]; simp) (by simp) (by simp)
      (by simp) with ⟨g5, g6⟩
  have hv := g6 pr hpr
  have hk := g5 qr hqr pr.2 hv
  exact fun h => hk h.symm

/-- C10 witness: in the two-identical-adds function the single map pair's
replacement is not a key of the map. -/
theorem claim_C10_witness :
    ((RA.allInstrs RA.exF).map RA.Instr.id).Nodup ∧
    (RA.exAdd2, RA.exAdd1) ∈ RA.runAnalysis RA.exF RA.exDT ∧
    RA.exAdd1.id ≠ RA.exAdd2.id :=
  ⟨by decide, by decide,
    claim_C10 RA.exF RA.exDT (by decide) (RA.exAdd2, RA.exAdd1) (by decide)
      (RA.exAdd2, RA.exAdd1) (by decide)⟩

theorem RA.foldr_append_map {α β : Type} (g : α → β) :
    ∀ L : List (List α),
      (L.map (fun bb => bb.map g)).foldr (fun bb acc => bb ++ acc) []
        = (L.foldr (fun bb acc => bb ++ acc) []).map g := by
  intro L
  induction L with
  | nil => rfl
  | cons bb L ih =>
    simp only [List.map_cons, List.foldr_cons, List.map_append, ih]

theorem RA.mem_foldr_append {α : Type} (x : α) :
    ∀ L : List (List α),
      x ∈ L.foldr (fun bb acc => bb ++ acc) [] ↔ ∃ bb, bb ∈ L ∧ x ∈ bb := by
  intro L
  induction L with
  | nil => simp
  | cons bb L ih =>
    simp only [List.foldr_cons, List.mem_append, ih, List.mem_cons]
    constructor
    · rintro (hx | ⟨bb', hb', hx⟩)
      · exact ⟨bb, Or.inl rfl, hx⟩
      · exact ⟨bb', Or.inr hb', hx⟩
    · rintro ⟨bb', hb' | hb', hx⟩
      · subst hb'; exact Or.inl hx
      · exact Or.inr ⟨bb', hb', hx⟩

theorem RA.mem_allInstrs (j : RA.Instr) (F : RA.Func) :
    j ∈ RA.allInstrs F ↔ ∃ bb, bb ∈ F.blocks ∧ j ∈ bb :=
  RA.mem_foldr_append j F.blocks

theorem RA.allInstrs_rauwFunc (F : RA.Func) (r p : Nat) :
    RA.allInstrs (RA.rauwFunc F r p)
      = (RA.allInstrs F).map (RA.rauwInstr r p) := by
  unfold RA.allInstrs RA.rauwFunc
  exact RA.foldr_append_map (RA.rauwInstr r p) F.blocks

theorem RA.rauwInstr_id (r p : Nat) (i : RA.Instr) :
    (RA.rauwInstr r p i).id = i.id := rfl

theorem RA.elimStep_skip (st : RA.Func × List RA.Instr)
    (pr : RA.Instr × RA.Instr) (hty : pr.1.resultType ≠ pr.2.resultType) :
    RA.elimStep st pr = st := by
  unfold RA.elimStep
  rw [if_pos hty]

theorem RA.elimStep_apply (st : RA.Func × List RA.Instr)
    (pr : RA.Instr × RA.Instr) (hty : pr.1.resultType = pr.2.resultType) :
    RA.elimStep st pr
      = (RA.rauwFunc st.1 pr.1.id pr.2.id, st.2 ++ [pr.1]) := by
  unfold RA.elimStep
  rw [if_neg (by simp [hty])]

theorem RA.allInstrs_elim_foldl_map_id (RI : List (RA.Instr × RA.Instr)) :
    ∀ (F : RA.Func) (dels : List RA.Instr),
      (RA.allInstrs ((RI.foldl RA.elimStep (F, dels)).1)).map RA.Instr.id
        = (RA.allInstrs F).map RA.Instr.id := by
  induction RI with
  | nil => intro F dels; rfl
  | cons qr rest ih =>
    intro F dels
    simp only [List.foldl_cons]
    by_cases hty : qr.1.resultType = qr.2.resultType
    · rw [RA.elimStep_apply _ _ hty, ih, RA.allInstrs_rauwFunc,
        List.map_map]
      rfl
    · rw [RA.elimStep_skip _ _ hty]
      exact ih F dels

theorem RA.elim_foldl_dels (RI : List (RA.Instr × RA.Instr)) :
    ∀ (F : RA.Func) (dels : List RA.Instr),
      (RI.foldl RA.elimStep (F, dels)).2
        = dels ++ (RI.filter
            (fun pr => decide (pr.1.resultType = pr.2.resultType))).map
            (fun pr => pr.1) := by
  induction RI with
  | nil => intro F dels; simp
  | cons qr rest ih =>
    intro F dels
    simp only [List.foldl_cons]
    by_cases hty : qr.1.resultType = qr.2.resultType
    · rw [RA.elimStep_apply _ _ hty, ih,
        List.filter_cons_of_pos (by simpa using hty)]
      simp
    · rw [RA.elimStep_skip _ _ hty, ih,
        List.filter_cons_of_neg (by simpa using hty)]

theorem RA.rauwInstr_no_use (r p : Nat) (i : RA.Instr) (x : Nat)
    (hx : p ≠ x) (hold : x ∉ i.operands ∨ x = r) :
    x ∉ (RA.rauwInstr r p i).operands := by
  unfold RA.rauwInstr
  simp only [List.mem_map]
  rintro ⟨o, ho, heq⟩
  by_cases hor : o = r
  · rw [if_pos hor] at heq
    exact hx heq
  · rw [if_neg hor] at heq
    subst heq
    rcases hold with hold | hold
    · exact hold ho
    · exact hor hold

theorem RA.rauwFunc_no_use (F : RA.Func) (r p x : Nat) (hx : p ≠ x)
    (hold : (∀ j ∈ RA.allInstrs F, x ∉ j.operands) ∨ x = r) :
    ∀ j ∈ RA.allInstrs (RA.rauwFunc F r p), x ∉ j.operands := by
  intro j hj
  rw [RA.allInstrs_rauwFunc] at hj
  rcases List.mem_map.mp hj with ⟨j0, hj0, hje⟩
  subst hje
  apply RA.rauwInstr_no_use r p j0 x hx
  rcases hold with hold | hold
  · exact Or.inl (hold j0 hj0)
  · exact Or.inr hold

theorem RA.elim_foldl_no_use (RI : List (RA.Instr × RA.Instr)) :
    ∀ (F : RA.Func) (dels : List RA.Instr) (x : Nat),
      (∀ j ∈ RA.allInstrs F, x ∉ j.operands) →
      (∀ qr ∈ RI, qr.2.id ≠ x) →
      ∀ j ∈ RA.allInstrs ((RI.foldl RA.elimStep (F, dels)).1),
        x ∉ j.operands := by
  induction RI with
  | nil => intro F dels x h _ j hj; exact h j hj
  | cons qr rest ih =>
    intro F dels x h hv
    simp only [List.foldl_cons]
    by_cases hty : qr.1.resultType = qr.2.resultType
    · rw [RA.elimStep_apply _ _ hty]
      apply ih _ _ x
      · exact RA.rauwFunc_no_use F qr.1.id qr.2.id x
          (hv qr (List.mem_cons_self _ _)) (Or.inl h)
      · exact fun q hq => hv q (List.mem_cons_of_mem _ hq)
    · rw [RA.elimStep_skip _ _ hty]
      exact ih F dels x h (fun q hq => hv q (List.mem_cons_of_mem _ hq))

theorem RA.elim_foldl_erases_use (RI : List (RA.Instr × RA.Instr)) :
    ∀ (F : RA.Func) (dels : List RA.Instr),
      (∀ pr ∈ RI, ∀ qr ∈ RI, pr.2.id ≠ qr.1.id) →
      ∀ pr ∈ RI, pr.1.resultType = pr.2.resultType →
        ∀ j ∈ RA.allInstrs ((RI.foldl RA.elimStep (F, dels)).1),
          pr.1.id ∉ j.operands := by
  induction RI with
  | nil => intro F dels _ pr hpr; simp at hpr
  | cons qr rest ih =>
    intro F dels hdisj pr hpr hty
    simp only [List.foldl_cons]
    rcases List.mem_cons.mp hpr with hpr | hpr
    · subst hpr
      rw [RA.elimStep_apply _ _ hty]
      apply RA.elim_foldl_no_use rest _ _ pr.1.id
      · exact RA.rauwFunc_no_use F pr.1.id pr.2.id pr.1.id
          (hdisj pr (List.mem_cons_self _ _) pr (List.mem_cons_self _ _))
          (Or.inr rfl)
      · exact fun q hq => hdisj q (List.mem_cons_of_mem _ hq) pr
          (List.mem_cons_self _ _)
    · apply ih _ _ (fun a ha b hb => hdisj a (List.mem_cons_of_mem _ ha) b
        (List.mem_cons_of_mem _ hb)) pr hpr hty

theorem RA.mem_allInstrs_eraseMarked (F : RA.Func) (dels : List RA.Instr)
    (j : RA.Instr) :
    j ∈ RA.allInstrs (RA.eraseMarked F dels) ↔
      j ∈ RA.allInstrs F ∧
        dels.any (fun d => decide (d.id = j.id)) = false := by
  unfold RA.eraseMarked
  rw [RA.mem_allInstrs]
  simp only [List.mem_map]
  constructor
  · rintro ⟨bb', ⟨bb, hbb, hbe⟩, hj⟩
    subst hbe
    rcases List.mem_filter.mp hj with ⟨hj, hpred⟩
    rw [Bool.not_eq_true'] at hpred
    exact ⟨(RA.mem_allInstrs j F).mpr ⟨bb, hbb, hj⟩, hpred⟩
  · rintro ⟨hj, hpred⟩
    rcases (RA.mem_allInstrs j F).mp hj with ⟨bb, hbb, hj'⟩
    exact ⟨bb.filter _, ⟨bb, hbb, rfl⟩,
      List.mem_filter.mpr ⟨hj', by rw [Bool.not_eq_true']; exact hpred⟩⟩

/-- C8. Confirmed. eliminateRedundancies redirects all uses of each
type-matched redundant instruction and erases it after the whole map is
processed, skips type-mismatched pairs leaving the instruction in the
function, and reports changed exactly when at least one pair was erased
(stated under the analysis invariants: distinct redundant instructions and
no replacement being itself redundant). -/
theorem claim_C8 (F : RA.Func) (RI : List (RA.Instr × RA.Instr))
    (hkeys : (RI.map (fun pr => pr.1.id)).Nodup)
    (hdisj : ∀ pr ∈ RI, ∀ qr ∈ RI, pr.2.id ≠ qr.1.id) :
    ((RA.eliminateRedundancies F RI).2 = true ↔
      ∃ pr ∈ RI, pr.1.resultType = pr.2.resultType) ∧
    (∀ pr ∈ RI, pr.1.resultType ≠ pr.2.resultType →
      ∀ j ∈ RA.allInstrs F, j.id = pr.1.id →
        ∃ j' ∈ RA.allInstrs (RA.eliminateRedundancies F RI).1,
          j'.id = pr.1.id) ∧
    (∀ pr ∈ RI, pr.1.resultType = pr.2.resultType →
      ∀ j ∈ RA.allInstrs (RA.eliminateRedundancies F RI).1,
        j.id ≠ pr.1.id ∧ pr.1.id ∉ j.operands) := by
  by_cases hRI : RI = []
  · subst hRI
    refine ⟨by simp [RA.eliminateRedundancies], by simp, by simp⟩
  · have helim : RA.eliminateRedundancies F RI
        = (RA.eraseMarked (RI.foldl RA.elimStep (F, [])).1
            (RI.foldl RA.elimStep (F, [])).2,
          !(RI.foldl RA.elimStep (F, [])).2.isEmpty) := by
      unfold RA.eliminateRedundancies
      rw [if_neg hRI]
    have hdels : (RI.foldl RA.elimStep (F, [])).2
        = (RI.filter
            (fun pr => decide (pr.1.resultType = pr.2.resultType))).map
            (fun pr => pr.1) := by
      simpa using RA.elim_foldl_dels RI F []
    refine ⟨?_, ?_, ?_⟩
    · rw [helim]
      simp only
      rw [hdels]
      simp only [Bool.not_eq_true', List.isEmpty_eq_false, ne_eq,
        List.map_eq_nil_iff]
      constructor
      · intro hne
        by_contra hno
        push_neg at hno
        apply hne
        rw [List.filter_eq_nil_iff]
        intro pr hpr
        simpa using hno pr hpr
      · rintro ⟨pr, hpr, heq⟩ hnil
        rw [List.filter_eq_nil_iff] at hnil
        have hc := hnil pr hpr
        simp only [decide_eq_true_eq] at hc
        exact hc heq
    · intro pr hpr hty j hj hid
      have hids := RA.allInstrs_elim_foldl_map_id RI F []
      have hmem : pr.1.id ∈ (RA.allInstrs
          ((RI.foldl RA.elimStep (F, [])).1)).map RA.Instr.id := by
        rw [hids]
        exact hid ▸ List.mem_map_of_mem RA.Instr.id hj
      rcases List.mem_map.mp hmem with ⟨j', hj', hid'⟩
      refine ⟨j', ?_, hid'⟩
      rw [helim]
      simp only
      rw [RA.mem_allInstrs_eraseMarked]
      refine ⟨hj', ?_⟩
      by_contra hany
      rw [Bool.not_eq_false] at hany
      rcases List.any_eq_true.mp hany with ⟨d, hd, hde⟩
      rw [hdels] at hd
      rcases List.mem_map.mp hd with ⟨qr, hqr, hqe⟩
      rcases List.mem_filter.mp hqr with ⟨hqmem, hqty⟩
      simp only [decide_eq_true_eq] at hde hqty
      have : qr = pr := List.inj_on_of_nodup_map hkeys hqmem hpr
        (by rw [hqe]; rw [hde, hid'])
      rw [this] at hqty
      exact hty hqty
    · intro pr hpr hty j hj
      rw [helim] at hj
      simp only at hj
      rw [RA.mem_allInstrs_eraseMarked] at hj
      rcases hj with ⟨hjf, hany⟩
      constructor
      · intro heq
        have hprdels : pr.1 ∈ (RI.foldl RA.elimStep (F, [])).2 := by
          rw [hdels]
          exact List.mem_map_of_mem _
            (List.mem_filter.mpr ⟨hpr, by simpa using hty⟩)
        have : (RI.foldl RA.elimStep (F, [])).2.any
            (fun d => decide (d.id = j.id)) = true :=
          List.any_eq_true.mpr ⟨pr.1, hprdels, by simp [heq]⟩
        rw [this] at hany
        cases hany
      · exact RA.elim_foldl_erases_use RI F [] hdisj pr hpr hty j hjf

/-- C8 witness: one matched pair is erased with its uses redirected, one
type-mismatched pair is skipped, and the pass reports a change. -/
theorem claim_C8_witness :
    ((RA.exRI.map (fun pr => pr.1.id)).Nodup) ∧
    (RA.eliminateRedundancies RA.exF RA.exRI).2 = true :=
  ⟨by decide,
    (claim_C8 RA.exF RA.exRI (by decide) (by decide)).1.mpr
      ⟨(RA.exAdd2, RA.exAdd1), by decide, by decide⟩⟩

theorem RA.perm_any_eq {α : Type} (f : α → Bool) {l1 l2 : List α}
    (h : l1.Perm l2) : l1.any f = l2.any f := by
  cases h1 : l1.any f <;> cases h2 : l2.any f <;> try rfl
  · rcases List.any_eq_true.mp h2 with ⟨a, ha, hf⟩
    have hc : l1.any f = true :=
      List.any_eq_true.mpr ⟨a, h.mem_iff.mpr ha, hf⟩
    rw [h1] at hc
    cases hc
  · rcases List.any_eq_true.mp h1 with ⟨a, ha, hf⟩
    have hc : l2.any f = true :=
      List.any_eq_true.mpr ⟨a, h.mem_iff.mp ha, hf⟩
    rw [h2] at hc
    cases hc

theorem RA.perm_isEmpty_eq {α : Type} {l1 l2 : List α} (h : l1.Perm l2) :
    l1.isEmpty = l2.isEmpty := by
  cases l1 with
  | nil => rw [h.nil_eq]
  | cons a t =>
    cases l2 with
    | nil => exact (List.cons_ne_nil a t h.eq_nil).elim
    | cons b s => rfl

theorem RA.rauwInstr_comm (r1 p1 r2 p2 : Nat) (h12 : r1 ≠ r2)
    (hp1 : p1 ≠ r2) (hp2 : p2 ≠ r1) (i : RA.Instr) :
    RA.rauwInstr r2 p2 (RA.rauwInstr r1 p1 i)
      = RA.rauwInstr r1 p1 (RA.rauwInstr r2 p2 i) := by
  unfold RA.rauwInstr
  simp only [List.map_map]
  congr 1
  apply List.map_congr_left
  intro o _
  simp only [Function.comp]
  split_ifs <;> omega

theorem RA.rauwFunc_comm (F : RA.Func) (r1 p1 r2 p2 : Nat) (h12 : r1 ≠ r2)
    (hp1 : p1 ≠ r2) (hp2 : p2 ≠ r1) :
    RA.rauwFunc (RA.rauwFunc F r1 p1) r2 p2
      = RA.rauwFunc (RA.rauwFunc F r2 p2) r1 p1 := by
  unfold RA.rauwFunc
  simp only [List.map_map]
  congr 1
  apply List.map_congr_left
  intro bb _
  simp only [Function.comp, List.map_map]
  apply List.map_congr_left
  intro i _
  simp only [Function.comp]
  exact RA.rauwInstr_comm r1 p1 r2 p2 h12 hp1 hp2 i

theorem RA.elim_foldl_func_any_dels (RI : List (RA.Instr × RA.Instr)) :
    ∀ (F : RA.Func) (d d' : List RA.Instr),
      (RI.foldl RA.elimStep (F, d)).1 = (RI.foldl RA.elimStep (F, d')).1 := by
  induction RI with
  | nil => intro F d d'; rfl
  | cons qr rest ih =>
    intro F d d'
    simp only [List.foldl_cons]
    by_cases hty : qr.1.resultType = qr.2.resultType
    · rw [RA.elimStep_apply _ _ hty, RA.elimStep_apply _ _ hty]
      exact ih _ _ _
    · rw [RA.elimStep_skip _ _ hty, RA.elimStep_skip _ _ hty]
      exact ih _ _ _

theorem RA.elim_foldl_func_perm {RI RI' : List (RA.Instr × RA.Instr)}
    (hperm : RI.Perm RI') :
    ((RI.map (fun pr => pr.1.id)).Nodup) →
    (∀ pr ∈ RI, ∀ qr ∈ RI, pr.2.id ≠ qr.1.id) →
    ∀ (F : RA.Func) (d : List RA.Instr),
      (RI.foldl RA.elimStep (F, d)).1 = (RI'.foldl RA.elimStep (F, d)).1 := by
  induction hperm with
  | nil => intro _ _ F d; rfl
  | cons x h ih =>
    intro hkeys hdisj F d
    simp only [List.foldl_cons]
    rw [List.map_cons, List.nodup_cons] at hkeys
    exact ih hkeys.2
      (fun a ha b hb => hdisj a (List.mem_cons_of_mem _ ha) b
        (List.mem_cons_of_mem _ hb)) _ _
  | swap x y l =>
    intro hkeys hdisj F d
    simp only [List.foldl_cons]
    have hxy : y.1.id ≠ x.1.id := by
      rw [List.map_cons, List.map_cons, List.nodup_cons] at hkeys
      intro h
      exact hkeys.1 (by rw [h]; exact List.mem_cons_self _ _)
    have hyx : x.2.id ≠ y.1.id := hdisj x (by simp) y (by simp)
    have hxx : y.2.id ≠ x.1.id := hdisj y (by simp) x (by simp)
    have hfunc : (RA.elimStep (RA.elimStep (F, d) y) x).1
        = (RA.elimStep (RA.elimStep (F, d) x) y).1 := by
      by_cases htx : x.1.resultType = x.2.resultType <;>
        by_cases hty : y.1.resultType = y.2.resultType
      · simp only [fun st => RA.elimStep_apply st x htx,
          fun st => RA.elimStep_apply st y hty]
        exact RA.rauwFunc_comm F y.1.id y.2.id x.1.id x.2.id hxy hxx hyx
      · simp only [fun st => RA.elimStep_apply st x htx,
          fun st => RA.elimStep_skip st y hty]
      · simp only [fun st => RA.elimStep_skip st x htx,
          fun st => RA.elimStep_apply st y hty]
      · simp only [fun st => RA.elimStep_skip st x htx,
          fun st => RA.elimStep_skip st y hty]
    calc (l.foldl RA.elimStep (RA.elimStep (RA.elimStep (F, d) y) x)).1
        = (l.foldl RA.elimStep
            ((RA.elimStep (RA.elimStep (F, d) x) y).1,
              (RA.elimStep (RA.elimStep (F, d) y) x).2)).1 := by
          conv_lhs => rw [← Prod.mk.eta
            (p := RA.elimStep (RA.elimStep (F, d) y) x)]
          rw [hfunc]
      _ = (l.foldl RA.elimStep (RA.elimStep (RA.elimStep (F, d) x) y)).1 := by
          conv_rhs => rw [← Prod.mk.eta
            (p := RA.elimStep (RA.elimStep (F, d) x) y)]
          exact RA.elim_foldl_func_any_dels l _ _ _
  | trans h1 h2 ih1 ih2 =>
    intro hkeys hdisj F d
    rw [ih1 hkeys hdisj F d]
    exact ih2 ((h1.map (fun pr => pr.1.id)).nodup_iff.mp hkeys)
      (fun a ha b hb => hdisj a (h1.mem_iff.mpr ha) b (h1.mem_iff.mpr hb))
      F d

theorem RA.eraseMarked_perm (G : RA.Func) {d1 d2 : List RA.Instr}
    (h : d1.Perm d2) : RA.eraseMarked G d1 = RA.eraseMarked G d2 := by
  unfold RA.eraseMarked
  congr 1
  apply List.map_congr_left
  intro bb _
  apply List.filter_congr
  intro i _
  rw [RA.perm_any_eq (fun d => decide (d.id = i.id)) h]

/-- C9. Corrected. Each pass is a deterministic function of its input, and
the order in which the redundancy map's pairs are processed does not affect
the result: under the analysis invariants (distinct redundant instructions,
no replacement itself redundant) eliminateRedundancies yields the same
function and the same changed flag for any permutation of the map. The
claim's further assertion that the choice of replacement among several
dominating candidates does not affect the final IR is false (see the
counterexample); determinism rests on findAvailableValue's fixed
insertion-order iteration of the bucket vector, not on
choice-insensitivity. -/
theorem claim_C9 (F : RA.Func) (RI RI' : List (RA.Instr × RA.Instr))
    (hperm : RI.Perm RI')
    (hkeys : (RI.map (fun pr => pr.1.id)).Nodup)
    (hdisj : ∀ pr ∈ RI, ∀ qr ∈ RI, pr.2.id ≠ qr.1.id) :
    RA.eliminateRedundancies F RI = RA.eliminateRedundancies F RI' := by
  by_cases hRI : RI = []
  · subst hRI
    have : RI' = [] := hperm.symm.eq_nil
    rw [this]
  · have hRI' : RI' ≠ [] := fun h => hRI ((h ▸ hperm).eq_nil)
    unfold RA.eliminateRedundancies
    rw [if_neg hRI, if_neg hRI']
    show (RA.eraseMarked (RI.foldl RA.elimStep (F, [])).1
          (RI.foldl RA.elimStep (F, [])).2,
        !(RI.foldl RA.elimStep (F, [])).2.isEmpty)
      = (RA.eraseMarked (RI'.foldl RA.elimStep (F, [])).1
          (RI'.foldl RA.elimStep (F, [])).2,
        !(RI'.foldl RA.elimStep (F, [])).2.isEmpty)
    have hdels : (RI.foldl RA.elimStep (F, [])).2
        = (RI.filter
            (fun pr => decide (pr.1.resultType = pr.2.resultType))).map
            (fun pr => pr.1) := by
      simpa using RA.elim_foldl_dels RI F []
    have hdels' : (RI'.foldl RA.elimStep (F, [])).2
        = (RI'.filter
            (fun pr => decide (pr.1.resultType = pr.2.resultType))).map
            (fun pr => pr.1) := by
      simpa using RA.elim_foldl_dels RI' F []
    have hdperm : (RI.foldl RA.elimStep (F, [])).2.Perm
        (RI'.foldl RA.elimStep (F, [])).2 := by
      rw [hdels, hdels']
      exact (hperm.filter _).map _
    have hfunc : (RI.foldl RA.elimStep (F, [])).1
        = (RI'.foldl RA.elimStep (F, [])).1 :=
      RA.elim_foldl_func_perm hperm hkeys hdisj F []
    rw [show RA.eraseMarked (RI.foldl RA.elimStep (F, [])).1
          (RI.foldl RA.elimStep (F, [])).2
        = RA.eraseMarked (RI'.foldl RA.elimStep (F, [])).1
          (RI'.foldl RA.elimStep (F, [])).2 from by
      rw [hfunc]
      exact RA.eraseMarked_perm _ hdperm]
    rw [RA.perm_isEmpty_eq hdperm]

/-- C9 counterexample: with the bucket for the same key holding two
providers that both dominate the query point, the provider returned by
findAvailableValue is whichever was inserted first, and eliminating the
redundancy with one provider or the other yields different output IR — the
choice does affect the final IR. -/
theorem claim_C9_counterexample :
    RA.exVNT9a.findAvailableValue RA.exKey9 RA.exR9 RA.exDT = some RA.exP1 ∧
    RA.exVNT9b.findAvailableValue RA.exKey9 RA.exR9 RA.exDT = some RA.exP2 ∧
    RA.exDT RA.exP1.id RA.exR9.id = true ∧
    RA.exDT RA.exP2.id RA.exR9.id = true ∧
    RA.eliminateRedundancies RA.exF9 [(RA.exR9, RA.exP1)]
      ≠ RA.eliminateRedundancies RA.exF9 [(RA.exR9, RA.exP2)] := by
  decide

/-- C9 witness: processing a two-pair redundancy map in either order yields
identical output. -/
theorem claim_C9_witness :
    ((RA.exRIperm.map (fun pr => pr.1.id)).Nodup) ∧
    RA.eliminateRedundancies RA.exF RA.exRIperm
      = RA.eliminateRedundancies RA.exF RA.exRIperm.reverse :=
  ⟨by decide, claim_C9 RA.exF RA.exRIperm RA.exRIperm.reverse
    (List.reverse_perm RA.exRIperm).symm (by decide) (by decide)⟩
